import Mathlib

set_option linter.unusedVariables false

/-!
Verification of the websum repository's content-normalization and
knowledge-base pipeline against its natural-language specification.

The Python sources (src/websum.py, src/modules/utils.py) are shallowly
embedded below.  Strings are modelled as `List Char` (the logical model of
Lean's `String`); Python `None` is modelled with `Option`; Python runtime
errors (TypeError on a None argument, NameError on an undefined global) are
modelled with `Except PyErr`.  Each specific regular expression used by the
source is embedded as a dedicated scanner with the same matching semantics
(leftmost match, greedy/non-greedy as in the pattern, scan resumes after the
replaced text), documented at its definition.
-/

/-- Python strings, modelled as lists of characters. -/
abbrev Str := List Char

/-- Literal helper: the character list of a Lean string literal. -/
def str (s : String) : Str := s.data

/-- Python's whitespace class for `str.strip`, `str.split()` and regex `\s`
(ASCII part: space, tab, newline, carriage return, vertical tab, form feed). -/
def pyWs : Char → Bool
  | ' ' | '\t' | '\n' | '\r' | '\x0b' | '\x0c' => true
  | _ => false

/-- `str.lstrip()`. -/
def lstrip (v : Str) : Str := v.dropWhile pyWs

/-- `str.rstrip()` (whitespace). -/
def rstripWs (v : Str) : Str := (v.reverse.dropWhile pyWs).reverse

/-- `str.strip()`. -/
def pyStrip (v : Str) : Str := rstripWs (lstrip v)

/-- `str.split('\n')` (Python semantics: `"".split('\n') == [""]`,
a trailing separator yields a trailing empty part). -/
def splitNl : Str → List Str
  | [] => [[]]
  | c :: cs =>
    if c = '\n' then [] :: splitNl cs
    else
      match splitNl cs with
      | [] => [[c]]
      | l :: ls => (c :: l) :: ls

/-- `'\n'.join(lines)`. -/
def joinNl : List Str → Str
  | [] => []
  | [l] => l
  | l :: ls => l ++ '\n' :: joinNl ls

/-- Accumulator for `tokens`: `cur` is the reversed current in-progress word. -/
def tokensAux : Str → Str → List Str
  | cur, [] => if cur.isEmpty then [] else [cur.reverse]
  | cur, c :: cs =>
    if pyWs c then
      if cur.isEmpty then tokensAux [] cs else cur.reverse :: tokensAux [] cs
    else tokensAux (c :: cur) cs

/-- `str.split()` with no argument: the maximal runs of non-whitespace
characters, in order.  This is the "non-whitespace token sequence" of the
round-trip-safety property. -/
def tokens (v : Str) : List Str := tokensAux [] v

/-- Python runtime errors relevant to the embedded code paths. -/
inductive PyErr
  | typeError
  | nameError (missing : Str)
deriving DecidableEq, Repr

/-! ## CrawlProgress (src/websum.py lines 243-277) -/

/-- State of `CrawlProgress`.  Both fields are Python ints; `page_limit`
is `None` for unlimited.  `pages_processed` starts at 0 and is only ever
incremented, but we keep it an `Int` to match the source type. -/
structure CrawlProgress where
  page_limit : Option Int
  pages_processed : Int
deriving DecidableEq, Repr

/-- `CrawlProgress.__init__`. -/
def CrawlProgress.init (limit : Option Int) : CrawlProgress :=
  { page_limit := limit, pages_processed := 0 }

/-- `should_process_more`: more pages may be processed within the limit. -/
def CrawlProgress.should_process_more (s : CrawlProgress) : Bool :=
  match s.page_limit with
  | none => true
  | some l => s.pages_processed < l

/-- `update`: increment the processed page counter. -/
def CrawlProgress.update (s : CrawlProgress) : CrawlProgress :=
  { s with pages_processed := s.pages_processed + 1 }

/-- `limit_reached`. -/
def CrawlProgress.limit_reached (s : CrawlProgress) : Bool :=
  match s.page_limit with
  | none => false
  | some l => s.pages_processed ≥ l

/-- The operations a caller can perform on a `CrawlProgress`.  The two
queries do not mutate the state; `update` is the only mutator. -/
inductive ProgressOp
  | update
  | should_process_more
  | limit_reached

/-- State transition of one operation. -/
def ProgressOp.apply : ProgressOp → CrawlProgress → CrawlProgress
  | .update, s => s.update
  | .should_process_more, s => s
  | .limit_reached, s => s

/-- Run a sequence of operations. -/
def runProgressOps (ops : List ProgressOp) (s : CrawlProgress) : CrawlProgress :=
  ops.foldl (fun t op => op.apply t) s

/-! ## URLCache (src/websum.py lines 305-374) -/

/-- One cache entry as written by `add_url`: an ISO timestamp and a visit
count.  Entries written by this code always carry a `count` key, so the
`data.get('count', 1)` default in `merge` never fires for well-formed files
and the count is modelled as always present. -/
structure CacheEntry where
  timestamp : Str
  count : Nat
deriving DecidableEq, Repr

/-- The cache mapping (a JSON object: keys unique, insertion-ordered). -/
abbrev URLCacheMap := List (Str × CacheEntry)

/-- `url in self.cache`. -/
def hasUrl (m : URLCacheMap) (u : Str) : Bool :=
  m.any (fun e => e.1 = u)

/-- `self.cache[url]['count'] += c` (update the entry for `u`). -/
def bumpCount (m : URLCacheMap) (u : Str) (c : Nat) : URLCacheMap :=
  match m with
  | [] => []
  | (k, e) :: rest =>
    if k = u then (k, { e with count := e.count + c }) :: rest
    else (k, e) :: bumpCount rest u c

/-- `self.cache[url] = data` for a fresh key (dict insertion appends). -/
def insertEntry (m : URLCacheMap) (e : Str × CacheEntry) : URLCacheMap :=
  m ++ [e]

/-- One iteration of the loop body of `URLCache.merge`. -/
def mergeStep (m : URLCacheMap) (e : Str × CacheEntry) : URLCacheMap :=
  if hasUrl m e.1 then bumpCount m e.1 e.2.count else insertEntry m e

/-- `URLCache.merge`: fold the other cache's items (in order) into this one.
The source reads `other` from a JSON file; the mapping itself is taken as
input here. -/
def URLCache.merge (self other : URLCacheMap) : URLCacheMap :=
  other.foldl mergeStep self

/-- `URLCache.add_url`: insert or replace the entry for `u`, with the count
bumped by one (`now` stands for `datetime.now().isoformat()`). -/
def URLCache.add_url (m : URLCacheMap) (u : Str) (now : Str) : URLCacheMap :=
  match m with
  | [] => [(u, { timestamp := now, count := 1 })]
  | (k, e) :: rest =>
    if k = u then (k, { timestamp := now, count := e.count + 1 }) :: rest
    else (k, e) :: URLCache.add_url rest u now

/-- The visit count recorded for `u` (0 if absent). -/
def countOf (m : URLCacheMap) (u : Str) : Nat :=
  match m with
  | [] => 0
  | (k, e) :: rest => if k = u then e.count else countOf rest u

/-- `get_stats`'s `total_visits`: the sum of all counts. -/
def totalVisits (m : URLCacheMap) : Nat :=
  (m.map (fun e => e.2.count)).sum

/-! ## save_to_knowledge_base, standard-mode JSON sidecar
(src/websum.py lines 1123-1151) -/

/-- JSON values, as far as the sidecar needs them. -/
inductive JValue
  | str (s : Str)
  | num (n : Nat)
  | null
  | obj (fields : List (Str × JValue))

/-- The fields of `CrawlResult` that the standard-mode sidecar reads.
`htmlTitle` models the text of the first `<title>` element that
`BeautifulSoup(result.html).find("title")` would return (`none` when there is
no title or parsing fails, in which case the source keeps `"Untitled"`).
`screenshot_path`/`pdf_path` are `none` when the attribute is absent. -/
structure CrawlResultM where
  url : Str
  htmlTitle : Option Str
  markdown : Option Str
  summary : Option Str
  last_modified : Option Str
  screenshot_path : Option Str
  pdf_path : Option Str
  links : List Str
deriving DecidableEq, Repr

/-- The `metadata` dict built by `save_to_knowledge_base` in standard mode
(source lines 1134-1145), field for field and in source order.  `now` stands
for `datetime.now(timezone.utc).isoformat()`. -/
def standard_metadata (r : CrawlResultM) (now : Str) : List (Str × JValue) :=
  [ (str "url", JValue.str r.url),
    (str "title",
      JValue.str (match r.htmlTitle with
        | some t => pyStrip t
        | none => str "Untitled")),
    (str "timestamp", JValue.str now),
    (str "word_count",
      JValue.num (match r.markdown with
        | some md => (tokens md).length
        | none => 0)),
    (str "summary",
      match r.summary with
      | some s => JValue.str s
      | none => JValue.null),
    (str "last_modified",
      match r.last_modified with
      | some s => JValue.str s
      | none => JValue.null),
    (str "media", JValue.obj
      [ (str "screenshot",
          match r.screenshot_path with
          | some p => JValue.str p
          | none => JValue.null),
        (str "pdf",
          match r.pdf_path with
          | some p => JValue.str p
          | none => JValue.null) ]) ]

/-- The field list the specification claims for the sidecar. -/
def specSidecarKeys : List Str :=
  [str "url", str "title", str "timestamp", str "word_count",
   str "summary", str "last_modified", str "links"]

/-! ## clean_text (src/modules/utils.py lines 5-22) -/

/-- The decorative-glyph class of `re.sub(r'[=\-\*•◦○●]+', '', text)`. -/
def decoChar : Char → Bool
  | '=' | '-' | '*' | '•' | '◦' | '○' | '●' => true
  | _ => false

/-- `re.sub(r'[=\-\*•◦○●]+', '', text)`: each maximal run of decorative
characters is replaced by the empty string, i.e. every decorative character
is deleted. -/
def removeDecor : Str → Str
  | [] => []
  | c :: cs => if decoChar c then removeDecor cs else c :: removeDecor cs

/-- Helper for `collapseWs`: the flag records whether the scanner is inside
a whitespace run whose single replacement space has already been emitted. -/
def collapseWsAux : Bool → Str → Str
  | _, [] => []
  | inRun, c :: cs =>
    if pyWs c then
      if inRun then collapseWsAux true cs else ' ' :: collapseWsAux true cs
    else c :: collapseWsAux false cs

/-- `re.sub(r'\s+', ' ', text)`: each maximal whitespace run becomes one
space (leftmost, greedy). -/
def collapseWs (v : Str) : Str := collapseWsAux false v

/-- `text.replace(pat, rep)` for a two-character pattern `[a, b]`:
replace every non-overlapping occurrence, scanning left to right, the scan
resuming after the replacement (the replacement itself is never rescanned,
as with `str.replace`). -/
def repl2 (a b : Char) (rep : Str) : Str → Str
  | x :: y :: rest =>
    if x = a ∧ y = b then rep ++ repl2 a b rep rest
    else x :: repl2 a b rep (y :: rest)
  | v => v

/-- `text.replace(pat, rep)` for a three-character pattern `[a, b, c]`. -/
def repl3 (a b c : Char) (rep : Str) : Str → Str
  | x :: y :: z :: rest =>
    if x = a ∧ y = b ∧ z = c then rep ++ repl3 a b c rep rest
    else x :: repl3 a b c rep (y :: z :: rest)
  | v => v

/-- The scanner states of `re.sub(r'\[([^\]]+)\]\([^\)]+\)', r'\1', text)`.

The regex replaces a markdown link `[label](target)` (nonempty
bracket-free label, nonempty parenthesis-free target) by its label.  Because
both character classes exclude their own closing delimiter, the match extent
at a given `[` is forced; when the match at an opening `[` fails, the engine
rescans from the next character.  Any later `[` inside the failed label
region shares the same closing `]` (and the same text after it) and
therefore fails for the same reason, so the scanner below may resume in
normal state right after the failure point; this was cross-checked against
`re.sub` on the corner cases (nested and overlapping bracket patterns).

`LinkState.norm` is the normal state; `LinkState.lbl lblRev` is inside
`[...` with the reversed label accumulated; `LinkState.url lblRev urlRev`
is inside `](...`. -/
inductive LinkState
  | norm
  | lbl (lblRev : Str)
  | url (lblRev urlRev : Str)

/-- The link-removal scanner (see `LinkState`). -/
def linkScan : LinkState → Str → Str
  | .norm, [] => []
  | .norm, '[' :: cs => linkScan (.lbl []) cs
  | .norm, c :: cs => c :: linkScan .norm cs
  | .lbl lblRev, [] => '[' :: lblRev.reverse
  | .lbl lblRev, ']' :: '(' :: cs2 =>
    if lblRev.isEmpty then '[' :: ']' :: '(' :: linkScan .norm cs2
    else linkScan (.url lblRev []) cs2
  | .lbl lblRev, ']' :: cs => '[' :: lblRev.reverse ++ ']' :: linkScan .norm cs
  | .lbl lblRev, c :: cs => linkScan (.lbl (c :: lblRev)) cs
  | .url lblRev urlRev, [] => '[' :: lblRev.reverse ++ ']' :: '(' :: urlRev.reverse
  | .url lblRev urlRev, ')' :: cs =>
    if urlRev.isEmpty then
      '[' :: lblRev.reverse ++ ']' :: '(' :: ')' :: linkScan .norm cs
    else lblRev.reverse ++ linkScan .norm cs
  | .url lblRev urlRev, c :: cs => linkScan (.url lblRev (c :: urlRev)) cs

/-- The markdown-link removal `re.sub(r'\[([^\]]+)\]\([^\)]+\)', r'\1', text)`. -/
def linkSub (v : Str) : Str := linkScan .norm v

/-- The apostrophe character. -/
def apos : Char := Char.ofNat 39

/-- The `.replace` chain for encoding fixes (src/modules/utils.py lines
16-20), applied in source order.  The exact characters were taken from a
byte-level reading of the source file: the second pattern's third character
is an ASCII double quote, and the fifth pattern (`â€¢`) lists its own prefix
(the fourth pattern, `â€`) *before* it, so the fifth substitution can never
fire. -/
def fixEncoding (v : Str) : Str :=
  repl3 'â' '€' '¢' ['•']
    (repl2 'â' '€' ['"']
      (repl3 'â' '€' 'œ' ['"']
        (repl3 'â' '€' '"' ['-']
          (repl3 'â' '€' '™' [apos] v))))

/-- `clean_text` (src/modules/utils.py lines 5-22): strip markdown links,
delete decorative glyph runs, collapse whitespace, strip, then apply the
mojibake repairs, in that order. -/
def clean_text (text : Str) : Str :=
  fixEncoding (pyStrip (collapseWs (removeDecor (linkSub text))))

/-- `clean_text` on a possibly-`None` argument.  The source has no `None`
guard; its very first statement calls `re.sub(..., text)`, which raises
`TypeError: expected string or bytes-like object` when `text is None`. -/
def clean_textO : Option Str → Except PyErr Str
  | none => Except.error PyErr.typeError
  | some t => Except.ok (clean_text t)

/-! ## clean_markdown (src/websum.py lines 1415-1445)

Note that `websum.py` defines its own `clean_markdown` (it does not import
the different function of the same name from `modules.utils`), so inside
`websum.py` the name resolves to this definition. -/

/-- `markdown.replace('\r\n', '\n')`. -/
def crlfSub : Str → Str
  | [] => []
  | '\r' :: '\n' :: rest => '\n' :: crlfSub rest
  | c :: rest => c :: crlfSub rest

/-- Is this character a newline (the class of the `\n` runs collapsed by
`clean_markdown`)? -/
def isNl (c : Char) : Bool := c = '\n'

/-- Helper for `collapseNl`: flush a pending newline run (a run of three or
more newlines becomes exactly two). -/
def flushNl (k : Nat) : Str :=
  if 3 ≤ k then ['\n', '\n'] else List.replicate k '\n'

/-- Helper for `collapseNl`: `k` counts the pending newline run. -/
def collapseNlAux : Nat → Str → Str
  | k, [] => flushNl k
  | k, c :: cs =>
    if c = '\n' then collapseNlAux (k + 1) cs
    else flushNl k ++ c :: collapseNlAux 0 cs

/-- The `\n`-run collapse of `clean_markdown`: each maximal run of three or
more newlines becomes exactly two (the regex is greedy, so it always matches
a maximal run). -/
def collapseNl (v : Str) : Str := collapseNlAux 0 v

/-- Space or tab, the class of the `[ \t]` runs deleted before newlines. -/
def isSpTab (c : Char) : Bool := c = ' ' || c = '\t'

/-- Helper for `trailWsSub`: `pend` is the reversed pending space/tab run,
which is dropped if a newline follows and kept otherwise. -/
def trailWsAux : Str → Str → Str
  | pend, [] => pend.reverse
  | pend, c :: cs =>
    if isSpTab c then trailWsAux (c :: pend) cs
    else if c = '\n' then '\n' :: trailWsAux [] cs
    else pend.reverse ++ c :: trailWsAux [] cs

/-- The trailing-whitespace removal of `clean_markdown`: delete each maximal
space/tab run that is immediately followed by a newline. -/
def trailWsSub (v : Str) : Str := trailWsAux [] v

/-- The header-spacing rule of `clean_markdown`,
`(\n` + one-to-six `#` + non-greedy rest-of-line + `)\n(` + one
non-newline `)`, replaced by the group, a blank line and the consumed
character.  The hash counter plus the non-greedy rest of line together just
require at least one `#` right after the newline, and the rest of the
matched line runs to the line's end.  After a successful match the scan
resumes after the consumed character; when the lookahead fails (blank line
or end of input after the header line) the scan resumes at the
line-terminating newline.  The flag is true while the scanner is copying
the remainder of a header line, at whose end the lookahead is applied. -/
def hdrScan : Bool → Str → Str
  | false, [] => []
  | false, '\n' :: rest =>
    if rest.head? = some '#' then '\n' :: hdrScan true rest
    else '\n' :: hdrScan false rest
  | false, c :: rest => c :: hdrScan false rest
  | true, [] => []
  | true, ['\n'] => ['\n']
  | true, '\n' :: c :: tail =>
    if c = '\n' then '\n' :: hdrScan false (c :: tail)
    else '\n' :: '\n' :: c :: hdrScan false tail
  | true, c :: rest => c :: hdrScan true rest

/-- The header blank-line insertion of `clean_markdown` (see `hdrScan`). -/
def hdrSub (v : Str) : Str := hdrScan false v

/-- `clean_markdown` (src/websum.py lines 1415-1445): falsy guard, CRLF
normalization, newline-run collapse, trailing-whitespace removal, the
header blank-line rule, final strip. -/
def clean_markdown (markdown : Str) : Str :=
  if markdown.isEmpty then []
  else pyStrip (hdrSub (trailWsSub (collapseNl (crlfSub markdown))))

/-- `clean_markdown` on a possibly-`None` argument: `if not markdown` is
true for `None`, so `None` maps to `""`. -/
def clean_markdownO : Option Str → Str
  | none => []
  | some t => clean_markdown t

/-- A sample successful crawl result used for concrete evaluations. -/
def sampleResult : CrawlResultM :=
  { url := str "https://example.com/a"
    htmlTitle := some (str "A Page")
    markdown := some (str "hello world")
    summary := none
    last_modified := none
    screenshot_path := none
    pdf_path := none
    links := [str "https://example.com/b"] }

/-- A sample cache for concrete evaluations of `URLCache.merge`. -/
def cacheA : URLCacheMap :=
  [ (str "https://a.com/x", { timestamp := str "t1", count := 2 }),
    (str "https://a.com/y", { timestamp := str "t2", count := 1 }) ]

/-- A second sample cache, overlapping `cacheA` on one key. -/
def cacheB : URLCacheMap :=
  [ (str "https://a.com/y", { timestamp := str "t3", count := 3 }),
    (str "https://a.com/z", { timestamp := str "t4", count := 1 }) ]

/-! ## Pattern checkers used to state the idempotence conditions for
clean_markdown -/

/-- Does the predicate hold at some position (i.e. for some suffix)? -/
def anyPos (p : Str -> Bool) : Str -> Bool
  | [] => false
  | c :: rest => p (c :: rest) || anyPos p rest

/-- A run of three or more newlines starts here. -/
def has3At : Str -> Bool
  | a :: b :: c :: _ => a = '\n' && b = '\n' && c = '\n'
  | _ => false

/-- A space or tab immediately followed by a newline starts here. -/
def hasTWAt : Str -> Bool
  | a :: rest => isSpTab a && rest.head? = some '\n'
  | _ => false

/-- Applied to the rest of the text from a header line's end: the header
rule of `clean_markdown` would fire (single newline, then a non-newline). -/
def shapeTail : Str -> Bool
  | a :: b :: _ => a = '\n' && !(b = '\n')
  | _ => false

/-- A match of the header-spacing rule starts here: a newline, a line
starting with a hash, one newline and a non-newline character. -/
def hasShapeAt : Str -> Bool
  | a :: b :: rest =>
    a = '\n' && b = '#' && shapeTail (rest.dropWhile (fun x => x != '\n'))
  | _ => false

/-- Applied to the rest of the text from a header line's end: the next line
is itself a header line. -/
def adjTail : Str -> Bool
  | a :: b :: _ => a = '\n' && b = '#'
  | _ => false

/-- Two adjacent header lines start here (a newline, a hash-led line, a
newline and another hash). -/
def hasAdjAt : Str -> Bool
  | a :: b :: rest =>
    a = '\n' && b = '#' && adjTail (rest.dropWhile (fun x => x != '\n'))
  | _ => false

/-- The tail `hdrScan true` produces once the copied header line ends (the
argument is the remainder of the input from the line-terminating newline). -/
def hdrTail : Str -> Str
  | [] => []
  | ['\n'] => ['\n']
  | '\n' :: c :: tail =>
    if c = '\n' then '\n' :: hdrScan false (c :: tail)
    else '\n' :: '\n' :: c :: hdrScan false tail
  | w => w

/-- A whitespace character immediately followed by another whitespace
character starts here (the pattern whose absence characterizes
`collapseWs`-normal strings). -/
def hasWsPairAt : Str → Bool
  | a :: b :: _ => pyWs a && pyWs b
  | _ => false

/-- Python's substring containment `pat in t`. -/
def isSubstr (pat : Str) : Str → Bool
  | [] => pat.isEmpty
  | c :: cs => pat.isPrefixOf (c :: cs) || isSubstr pat cs

/-! ## format_code_block (src/websum.py lines 101-162) -/

/-- Python regex `\w` (ASCII part: letters, digits, underscore; the sources
only ever probe ASCII keywords). -/
def isWordC (c : Char) : Bool := c.isAlphanum || c = '_'

/-- Matches `\s+\w` at the start: a nonempty whitespace run followed by a
word character (`\s+` is greedy and `\w` is not whitespace, so the run is
exactly the maximal one). -/
def detTail2 (t : Str) : Bool :=
  !(t.takeWhile pyWs).isEmpty &&
    (match t.dropWhile pyWs with
     | c :: _ => isWordC c
     | [] => false)

/-- Matches `import\s+\w+` at the start (only the existence of the first
word character matters). -/
def detImportAt : Str → Bool
  | 'i' :: 'm' :: 'p' :: 'o' :: 'r' :: 't' :: t => detTail2 t
  | _ => false

/-- Matches `from\s+\w+\s+import` at the start.  `\w+` is greedy and the
character after its maximal run must be whitespace; a shorter run would end
at a word character, so the maximal-run reading is exact. -/
def detFromAt : Str → Bool
  | 'f' :: 'r' :: 'o' :: 'm' :: t =>
    !(t.takeWhile pyWs).isEmpty &&
      (let r1 := t.dropWhile pyWs
       !(r1.takeWhile isWordC).isEmpty &&
        (let r2 := r1.dropWhile isWordC
         !(r2.takeWhile pyWs).isEmpty &&
           (str "import").isPrefixOf (r2.dropWhile pyWs)))
  | _ => false

/-- Matches `def\s+\w+` at the start. -/
def detDefAt : Str → Bool
  | 'd' :: 'e' :: 'f' :: t => detTail2 t
  | _ => false

/-- Matches `class\s+\w+` at the start. -/
def detClassAt : Str → Bool
  | 'c' :: 'l' :: 'a' :: 's' :: 's' :: t => detTail2 t
  | _ => false

/-- Matches `async\s+def` at the start. -/
def detAsyncAt : Str → Bool
  | 'a' :: 's' :: 'y' :: 'n' :: 'c' :: t =>
    !(t.takeWhile pyWs).isEmpty && (str "def").isPrefixOf (t.dropWhile pyWs)
  | _ => false

/-- The detection `re.search(r'(import\s+\w+|from\s+\w+\s+import|def\s+\w+|class\s+\w+|async\s+def)', code)`:
does any position of the text start a match of one of the alternatives? -/
def pythonDetect (v : Str) : Bool :=
  anyPos (fun s =>
    detImportAt s || detFromAt s || detDefAt s || detClassAt s || detAsyncAt s) v

/-- Is the line blank in the Python sense `not line.strip()`? -/
def isBlankL (l : Str) : Bool := (pyStrip l).isEmpty

/-- The source's `get_indentation`: `len(line) - len(line.lstrip())`. -/
def indentOf (l : Str) : Nat := l.length - (lstrip l).length

/-- The source's `min(indentation_levels)`: the minimum indentation over the
non-blank lines (`none` when every line is blank).  Python's `min` over the
comprehension list does not depend on order, so a right fold is exact. -/
def minIndent : List Str → Option Nat
  | [] => none
  | l :: ls =>
    match minIndent ls with
    | none => if isBlankL l then none else some (indentOf l)
    | some m => if isBlankL l then some m else some (min (indentOf l) m)

/-- Matches `[^;]+?;?\s*$` against the rest of a line: some nonempty
semicolon-free prefix, an optional semicolon, then only whitespace up to the
line's end.  Because `[^;]` cannot cross a semicolon, a match exists exactly
when the text is nonempty and either contains no semicolon at all, or its
first semicolon is preceded by at least one character and followed only by
whitespace. -/
def semiTailOk (t : Str) : Bool :=
  if t.isEmpty then false
  else
    match t.dropWhile (fun c => c ≠ ';') with
    | [] => true
    | _ :: b2 => !(t.takeWhile (fun c => c ≠ ';')).isEmpty && b2.all pyWs

/-- Matches `import\s+` followed by `[^;]+?;?\s*$` at the start.  One
whitespace character after the literal suffices: any further whitespace is
absorbed by the `[^;]+?` part. -/
def importAt : Str → Bool
  | 'i' :: 'm' :: 'p' :: 'o' :: 'r' :: 't' :: c :: t => pyWs c && semiTailOk t
  | _ => false

/-- Scanner for `[^;]+?import` followed by `[^;]+?;?\s*$`: walk the text
looking for the literal `import` with at least one semicolon-free character
before it (the flag); a semicolon before the literal kills every continuation. -/
def fromScan : Bool → Str → Bool
  | seen, 'i' :: 'm' :: 'p' :: 'o' :: 'r' :: 't' :: t =>
    if seen && semiTailOk t then true
    else fromScan true ('m' :: 'p' :: 'o' :: 'r' :: 't' :: t)
  | seen, c :: cs => if c = ';' then false else fromScan true cs
  | _, [] => false

/-- Matches `from\s+[^;]+?import[^;]+?;?\s*$` at the start. -/
def fromAt : Str → Bool
  | 'f' :: 'r' :: 'o' :: 'm' :: c :: t => pyWs c && fromScan false t
  | _ => false

/-- Matches `[^:]+:\s*$` against the rest of a line: since `[^:]+` cannot
cross a colon, the first colon must exist, have at least one character
before it and only whitespace after it. -/
def colonTailOk (t : Str) : Bool :=
  match t.dropWhile (fun c => c ≠ ':') with
  | [] => false
  | _ :: b2 => !(t.takeWhile (fun c => c ≠ ':')).isEmpty && b2.all pyWs

/-- Matches `class\s+[^:]+:\s*$` at the start. -/
def classAt : Str → Bool
  | 'c' :: 'l' :: 'a' :: 's' :: 's' :: c :: t => pyWs c && colonTailOk t
  | _ => false

/-- Matches `def\s+[^:]+:\s*$` at the start. -/
def defAt : Str → Bool
  | 'd' :: 'e' :: 'f' :: c :: t => pyWs c && colonTailOk t
  | _ => false

/-- Matches `async\s+def\s+[^:]+:\s*$` at the start (the whitespace run
before the literal `def` must be consumed entirely). -/
def asyncAt : Str → Bool
  | 'a' :: 's' :: 'y' :: 'n' :: 'c' :: c :: t =>
    pyWs c &&
      (match t.dropWhile pyWs with
       | 'd' :: 'e' :: 'f' :: c2 :: t2 => pyWs c2 && colonTailOk t2
       | _ => false)
  | _ => false

/-- Does the `import` blank-line pattern match somewhere in this line? -/
def importShape (line : Str) : Bool := anyPos importAt line

/-- Does the `from ... import` blank-line pattern match somewhere in this line? -/
def fromShape (line : Str) : Bool := anyPos fromAt line

/-- Does the `class` blank-line pattern match somewhere in this line? -/
def classShape (line : Str) : Bool := anyPos classAt line

/-- Does the `def` blank-line pattern match somewhere in this line? -/
def defShape (line : Str) : Bool := anyPos defAt line

/-- Does the `async def` blank-line pattern match somewhere in this line? -/
def asyncShape (line : Str) : Bool := anyPos asyncAt line

/-- One `re.sub(r'(...\s*$)', r'\1\n', code, flags=re.MULTILINE)` pass,
modelled line by line: a match whose `\s`, `[^;]` and `[^:]` parts stay
within one line inserts one blank line after the line it matches.  In the
source, those parts can also cross line boundaries (the classes and `\s`
admit newlines), but every matched group still ends at a `$` position — a
line end of the current string — and the replacement `\1\n` inserts exactly
one newline there.  Source substitution and model therefore both return
the input with newlines inserted at line-end positions only; they can
differ in where blank lines land, and in nothing else, so the
whitespace-separated token sequence — the subject of the round-trip
claims — is the same for both. -/
def blankAfter (sh : Str → Bool) : List Str → List Str
  | [] => []
  | l :: ls => if sh l then l :: [] :: blankAfter sh ls else l :: blankAfter sh ls

/-- Replaces each newline by a newline and four spaces (the lambda
`m.group().replace('\n', '\n    ')` of the quote-respacing substitution). -/
def expandNl : Str → Str
  | [] => []
  | c :: cs =>
    if c = '\n' then '\n' :: ' ' :: ' ' :: ' ' :: ' ' :: expandNl cs
    else c :: expandNl cs

/-- Scanner for `re.sub(r'(["\x27\x27]).*?\1', lambda m: m.group().replace('\n', '\n    '), code, flags=re.DOTALL)`:
the character class holds a double quote and (twice) a single quote; `.*?`
with DOTALL is the shortest span up to the next occurrence of the same
quote.  The pending state holds the opening quote and the reversed span so
far; an unclosed quote at the end is restored verbatim (no match). -/
def rqScan : Option (Char × Str) → Str → Str
  | none, [] => []
  | none, c :: cs =>
    if c = '"' || c = apos then rqScan (some (c, [])) cs
    else c :: rqScan none cs
  | some (q, acc), [] => q :: acc.reverse
  | some (q, acc), c :: cs =>
    if c = q then q :: expandNl acc.reverse ++ q :: rqScan none cs
    else rqScan (some (q, c :: acc)) cs

/-- `format_code_block` (src/websum.py lines 101-162): detect Python,
strip, and for Python code pop blank boundary lines, remove the common
indentation, insert blank lines after import/from/class/def/async-def
lines, and re-indent newlines inside quoted spans.  Every step inside the
`try` block is total, so the `except` branch is dead. -/
def format_code_block (code : Str) : Str :=
  let is_python := pythonDetect code
  let code1 := pyStrip code
  if is_python then
    let lines1 := (splitNl code1).dropWhile isBlankL
    let lines2 := (lines1.reverse.dropWhile isBlankL).reverse
    let lines3 :=
      match minIndent lines2 with
      | none => lines2
      | some m => lines2.map (fun l => if isBlankL l then [] else l.drop m)
    let c2 := joinNl lines3
    let c3 := joinNl (blankAfter importShape (splitNl c2))
    let c4 := joinNl (blankAfter fromShape (splitNl c3))
    let c5 := joinNl (blankAfter classShape (splitNl c4))
    let c6 := joinNl (blankAfter defShape (splitNl c5))
    let c7 := joinNl (blankAfter asyncShape (splitNl c6))
    rqScan none c7
  else code1

/-! ## process_markdown_content (src/websum.py lines 1447-1502)

`websum.py` defines this function itself at line 1447; the definition
shadows the `process_markdown_content` imported from `modules.utils` at
line 45, so the call at line 1410 runs the local one. -/

/-- `re.sub(r'^(\s*[-*+]\s+)', r'* ', line)`: an anchored leading
whitespace run, a list marker and at least one whitespace character are
replaced by a star and one space. -/
def listSub1 (line : Str) : Str :=
  match line.dropWhile pyWs with
  | m :: rest =>
    if (m = '-' || m = '*' || m = '+') && !(rest.takeWhile pyWs).isEmpty then
      '*' :: ' ' :: rest.dropWhile pyWs
    else line
  | [] => line

/-- `re.sub(r'^(\s*\d+\.\s+)', r'1. ', line)` (`\d+` is greedy and the dot
is not a digit, so the maximal digit run is exact). -/
def listSub2 (line : Str) : Str :=
  let r := line.dropWhile pyWs
  if (r.takeWhile Char.isDigit).isEmpty then line
  else
    match r.dropWhile Char.isDigit with
    | '.' :: r2 =>
      if !(r2.takeWhile pyWs).isEmpty then '1' :: '.' :: ' ' :: r2.dropWhile pyWs
      else line
    | _ => line

/-- Both list-marker normalizations, in source order. -/
def listNorm (line : Str) : Str := listSub2 (listSub1 line)

/-- `line.strip().startswith('```')`. -/
def startsFence (l : Str) : Bool := (str "```").isPrefixOf (pyStrip l)

/-- The line loop of `process_markdown_content`: `inBlock` is
`in_code_block` and `acc` is `code_block_content`.  A fence line inside a
block emits the fixed fence `'```python'`, the formatted content and a
closing fence; the terminal case handles the source's unclosed-block branch
(which emits only when the accumulated content is nonempty). -/
def pmcLoop : Bool → List Str → List Str → List Str
  | inBlock, acc, [] =>
    if inBlock && !acc.isEmpty then
      str "```python" :: (splitNl (format_code_block (joinNl acc)) ++ [str "```"])
    else []
  | inBlock, acc, l :: ls =>
    if startsFence l then
      if inBlock then
        str "```python" ::
          (splitNl (format_code_block (joinNl acc)) ++ str "```" :: pmcLoop false [] ls)
      else pmcLoop true [] ls
    else if inBlock then pmcLoop inBlock (acc ++ [l]) ls
    else listNorm l :: pmcLoop false acc ls

/-- `process_markdown_content` (src/websum.py lines 1447-1502). -/
def process_markdown_content (markdown : Str) : Str :=
  if markdown.isEmpty then []
  else joinNl (pmcLoop false [] (splitNl markdown))

/-- `process_code` (src/modules/utils.py lines 60-64): strip, then tag the
fenced block `python` exactly when one of the four keyword substrings
occurs in the stripped code. -/
def process_code (code_text : Str) : Str :=
  let code := pyStrip code_text
  let lang :=
    if isSubstr (str "import") code || isSubstr (str "def") code ||
        isSubstr (str "class") code || isSubstr (str "async") code then
      str "python"
    else []
  '\n' :: (str "```" ++ lang ++ '\n' :: code ++ '\n' :: str "```" ++ ['\n'])

/-- Token sequence of a list of lines (the concatenation of each line's
whitespace-separated tokens); used to state the round-trip property. -/
def tokensL : List Str → List Str
  | [] => []
  | l :: ls => tokens l ++ tokensL ls

/-! ## extract_page_links (src/websum.py lines 532-565)

BeautifulSoup is abstracted: the function is modelled on the list of
`href` attribute values of the document's anchor tags, in document order. -/

/-- Characters allowed in a URL scheme after its leading letter. -/
def schemeChar (c : Char) : Bool := c.isAlphanum || c = '+' || c = '-' || c = '.'

/-- Helper for scheme detection: scan scheme characters up to a colon. -/
def schemeTail : Str → Option Str
  | [] => none
  | ':' :: rest => some rest
  | c :: cs => if schemeChar c then schemeTail cs else none

/-- Drops a leading `scheme:` (a letter, scheme characters, a colon), as
`urlparse` recognizes it; anything else is returned unchanged. -/
def dropScheme (u : Str) : Str :=
  match u with
  | c :: cs =>
    if c.isAlpha then
      match schemeTail cs with
      | some r => r
      | none => u
    else u
  | [] => []

/-- Characters that may appear in a netloc (it is ended by a slash, a
question mark or a hash). -/
def netlocChar (c : Char) : Bool := !(c = '/' || c = '?' || c = '#')

/-- `urlparse(u).netloc`: present exactly when `//` follows the optional
scheme, running to the first slash, question mark or hash. -/
def netlocOf (u : Str) : Str :=
  match dropScheme u with
  | '/' :: '/' :: rest => rest.takeWhile netlocChar
  | _ => []

/-- `href.startswith(('http://', 'https://'))`. -/
def startsHttp (href : Str) : Bool :=
  (str "http://").isPrefixOf href || (str "https://").isPrefixOf href

/-- The `scheme` part of a URL (empty when there is none). -/
def schemeStr (u : Str) : Str :=
  match u with
  | c :: cs =>
    if c.isAlpha && (schemeTail cs).isSome then c :: cs.takeWhile (fun x => x ≠ ':')
    else []
  | [] => []

/-- Everything after the `scheme://netloc` part (the path, query and
fragment); for a URL without a netloc, everything after the scheme. -/
def afterNetloc (u : Str) : Str :=
  match dropScheme u with
  | '/' :: '/' :: rest => rest.dropWhile netlocChar
  | other => other

/-- The `scheme://netloc` prefix of a URL. -/
def hostRoot (u : Str) : Str := u.take (u.length - (afterNetloc u).length)

/-- The path up to and including its last slash. -/
def dirOf (p : Str) : Str := (p.reverse.dropWhile (fun c => c ≠ '/')).reverse

/-- `urljoin(base_url, href)`, modelled for the reference forms the call
site can produce: empty reference, scheme-relative (`//...`), reference
with its own scheme (returned unchanged, as for a scheme outside the base's),
absolute path (`/...`) and plain relative path (appended to the base path's
directory).  Dot segments are not resolved; no theorem below depends on the
value this function returns, only on the filtering and normalization that
follow it. -/
def urljoinM (base url : Str) : Str :=
  if url.isEmpty then base
  else if (str "//").isPrefixOf url then schemeStr base ++ ':' :: url
  else if (match url with | c :: cs => c.isAlpha && (schemeTail cs).isSome | [] => false) then url
  else if url.head? = some '/' then hostRoot base ++ url
  else
    let d := dirOf (afterNetloc base)
    if d.isEmpty then hostRoot base ++ '/' :: url else hostRoot base ++ d ++ url

/-- The source's relative-link handling: hrefs not starting with
`http://` or `https://` are resolved against the base URL. -/
def resolveHref (base href : Str) : Str :=
  if startsHttp href then href else urljoinM base href

/-- The filter `parsed.netloc == base_domain or "docs" in parsed.netloc`. -/
def acceptLink (base_domain : Str) (h : Str) : Bool :=
  netlocOf h == base_domain || isSubstr (str "docs") (netlocOf h)

/-- `v.rstrip('/')`: every trailing slash is removed. -/
def rstripSlash (v : Str) : Str := (v.reverse.dropWhile (fun c => c = '/')).reverse

/-- The normalization `href.split('#')[0].rstrip('/')`. -/
def normalizeLink (h : Str) : Str := rstripSlash (h.takeWhile (fun c => c ≠ '#'))

/-- One iteration of the collection loop of `extract_page_links`: resolve
the href, and when the filter accepts it add its normalization to the set. -/
def linkStep (base_domain base_url : Str) (acc : List Str) (href : Str) : List Str :=
  let h := resolveHref base_url href
  if acceptLink base_domain h then
    let n := normalizeLink h
    if acc.contains n then acc else acc ++ [n]
  else acc

/-- The collection loop of `extract_page_links`.  The source accumulates
into a `set`; since the result is sorted afterwards, the set is modelled as
a duplicate-free list (first occurrence kept). -/
def collectLinks (base_url : Str) (hrefs : List Str) : List Str :=
  hrefs.foldl (linkStep (netlocOf base_url) base_url) []

/-- Lexicographic comparison by code point, Python's `<` on strings. -/
def strLt : Str → Str → Bool
  | [], [] => false
  | [], _ :: _ => true
  | _ :: _, [] => false
  | a :: as, b :: bs => if a < b then true else if b < a then false else strLt as bs

/-- Insertion into a sorted list (the comparison of `sorted`). -/
def insertSorted (x : Str) : List Str → List Str
  | [] => [x]
  | y :: ys => if strLt x y then x :: y :: ys else y :: insertSorted x ys

/-- `sorted(...)` by insertion sort. -/
def sortStrs (l : List Str) : List Str := l.foldr insertSorted []

/-- Is the list sorted (each adjacent pair in order)? -/
def sortedB : List Str → Bool
  | [] => true
  | [_] => true
  | x :: y :: r => !strLt y x && sortedB (y :: r)

/-- `extract_page_links` (src/websum.py lines 532-565), on the href list. -/
def extract_page_links (hrefs : List Str) (base_url : Str) : List Str :=
  sortStrs (collectLinks base_url hrefs)

/-! ## extract_readable_text, is_navigation_text, create_condensed_summary
and the knowledge-base writers (src/websum.py lines 724-1069,
src/modules/utils.py lines 24-31) -/

/-- Matches `quick\s+start` at the start (for `is_navigation_text`). -/
def navQuickAt : Str → Bool
  | 'q' :: 'u' :: 'i' :: 'c' :: 'k' :: t =>
    !(t.takeWhile pyWs).isEmpty && (str "start").isPrefixOf (t.dropWhile pyWs)
  | _ => false

/-- `is_navigation_text` (src/modules/utils.py lines 24-31): does any of
the three alternation patterns match the lowercased text?  All the
alternatives except `quick\s+start` are substring literals. -/
def is_navigation_text (text : Str) : Bool :=
  let t := text.map Char.toLower
  (isSubstr (str "home") t || isSubstr (str "search") t ||
   isSubstr (str "blog") t || isSubstr (str "changelog") t ||
   anyPos navQuickAt t ||
   isSubstr (str "installation") t || isSubstr (str "deployment") t) ||
  (isSubstr (str "previous") t || isSubstr (str "next") t ||
   isSubstr (str "menu") t || isSubstr (str "navigation") t) ||
  (isSubstr (str "copyright") t || isSubstr (str "terms") t ||
   isSubstr (str "privacy") t || isSubstr (str "contact") t)

/-- Scanner for `re.sub(r'```[\s\S]*?```', '', text)`: a lazy span between
two triple-backtick fences is deleted; an unclosed opener is restored
verbatim (the pending state holds the reversed span seen so far). -/
def fenceScan : Option Str → Str → Str
  | none, [] => []
  | none, '`' :: '`' :: '`' :: rest => fenceScan (some []) rest
  | none, c :: cs => c :: fenceScan none cs
  | some acc, [] => '`' :: '`' :: '`' :: acc.reverse
  | some acc, '`' :: '`' :: '`' :: rest => fenceScan none rest
  | some acc, c :: cs => fenceScan (some (c :: acc)) cs

/-- Scanner for `re.sub(r'`[^`]+`', '', text)`: a backtick, at least one
non-backtick, a backtick; a pair of adjacent backticks is no match, and the
second one is retried as an opener. -/
def inlineScan : Option Str → Str → Str
  | none, [] => []
  | none, '`' :: cs => inlineScan (some []) cs
  | none, c :: cs => c :: inlineScan none cs
  | some acc, [] => '`' :: acc.reverse
  | some acc, '`' :: cs =>
    if acc.isEmpty then '`' :: inlineScan (some []) cs else inlineScan none cs
  | some acc, c :: cs => inlineScan (some (c :: acc)) cs

/-- Scanner for `re.sub(r'https?://\S+', '', text)`: the flag is true while
deleting the greedy non-whitespace run.  The literal prefixes contain no
second `h`, so after a prefix that is not followed by a non-whitespace
character the characters can be emitted verbatim. -/
def urlScan : Bool → Str → Str
  | true, [] => []
  | true, c :: cs => if pyWs c then c :: urlScan false cs else urlScan true cs
  | false, 'h' :: 't' :: 't' :: 'p' :: 's' :: ':' :: '/' :: '/' :: c :: cs =>
    if pyWs c then 'h' :: 't' :: 't' :: 'p' :: 's' :: ':' :: '/' :: '/' :: c :: urlScan false cs
    else urlScan true cs
  | false, 'h' :: 't' :: 't' :: 'p' :: ':' :: '/' :: '/' :: c :: cs =>
    if pyWs c then 'h' :: 't' :: 't' :: 'p' :: ':' :: '/' :: '/' :: c :: urlScan false cs
    else urlScan true cs
  | false, c :: cs => c :: urlScan false cs
  | false, [] => []

/-- Scanner for `re.sub(r'<[^>]+>', '', text)`: `[^>]` admits a nested `<`,
so the span runs from the first unclosed `<` to the next `>`; `<>` is no
match and is kept. -/
def tagScan : Option Str → Str → Str
  | none, [] => []
  | none, '<' :: cs => tagScan (some []) cs
  | none, c :: cs => c :: tagScan none cs
  | some acc, [] => '<' :: acc.reverse
  | some acc, '>' :: cs =>
    if acc.isEmpty then '<' :: '>' :: tagScan none cs else tagScan none cs
  | some acc, c :: cs => tagScan (some (c :: acc)) cs

/-- The character class of `re.sub(r'[=\-\*•◦○●\[\]]+', '', text)` in
`extract_readable_text`: the decorative glyphs plus both square brackets. -/
def decoBr (c : Char) : Bool := decoChar c || c = '[' || c = ']'

/-- Deletion of every character of the extended decorative class. -/
def removeDecorBr : Str → Str
  | [] => []
  | c :: cs => if decoBr c then removeDecorBr cs else c :: removeDecorBr cs

/-- `text.replace(pat, rep)` for a four-character pattern. -/
def repl4 (a b c d : Char) (rep : Str) : Str → Str
  | x :: y :: z :: w :: rest =>
    if x = a ∧ y = b ∧ z = c ∧ w = d then rep ++ repl4 a b c d rep rest
    else x :: repl4 a b c d rep (y :: z :: w :: rest)
  | v => v

/-- The `.replace` chain of `extract_readable_text` (src/websum.py lines
753-758), in source order: the five mojibake repairs of `clean_text` (the
second pattern's third character is again an ASCII double quote, read at
byte level from the source) followed by the removal of the four-character
corrupted-emoji sequence. -/
def fixEncodingERT (v : Str) : Str :=
  repl4 'ð' 'Ÿ' '˜' '…' []
    (repl3 'â' '€' '¢' ['•']
      (repl2 'â' '€' ['"']
        (repl3 'â' '€' 'œ' ['"']
          (repl3 'â' '€' '"' ['-']
            (repl3 'â' '€' '™' [apos] v)))))

/-- `'\n\n'.join(paragraphs)`. -/
def join2Nl : List Str → Str
  | [] => []
  | [l] => l
  | l :: ls => l ++ '\n' :: '\n' :: join2Nl ls

/-- `str.split('\n\n')` (non-overlapping, scanning from the left). -/
def split2Nl : Str → List Str
  | [] => [[]]
  | '\n' :: '\n' :: rest => [] :: split2Nl rest
  | c :: cs =>
    match split2Nl cs with
    | [] => [[c]]
    | l :: ls => (c :: l) :: ls

/-- `extract_readable_text` (src/websum.py lines 724-769): remove fenced
and inline code, markdown links, URLs and HTML tags, delete the extended
decorative class, collapse whitespace, repair encodings, then keep the
stripped paragraphs longer than twenty characters that are not navigation
text, joined by blank lines. -/
def extract_readable_text (md : Str) : Str :=
  let t1 := fenceScan none md
  let t2 := inlineScan none t1
  let t3 := linkSub t2
  let t4 := urlScan false t3
  let t5 := tagScan none t4
  let t6 := removeDecorBr t5
  let t7 := collapseWs t6
  let t8 := fixEncodingERT t7
  join2Nl (((splitNl t8).map pyStrip).filter
    (fun p => !p.isEmpty && decide (20 < p.length) && !is_navigation_text p))

/-- The paragraph filter of `create_condensed_summary`:
`[p for p in content.split('\n\n') if p.strip()]`. -/
def survivingParas (c : Str) : List Str :=
  (split2Nl c).filter (fun p => !(pyStrip p).isEmpty)

/-- `create_condensed_summary` (src/websum.py lines 771-841), to the point
of its outcome.  The three early returns are the falsy guards of the
source; once the paragraph list is nonempty, control flows through the
core-message and key-point loops (pure string operations and
`is_navigation_text` calls, all total) and reaches
`raw_terms = extract_technical_terms(content)` at line 826.  No function of
that name is defined or imported in any module of the repository, so the
name lookup raises `NameError` before any summary dict is built. -/
def create_condensed_summary (content : Str) : Except PyErr (Option Unit) :=
  if content.isEmpty then .ok none
  else
    let c := extract_readable_text content
    if c.isEmpty then .ok none
    else if (survivingParas c).isEmpty then .ok none
    else .error (.nameError (str "extract_technical_terms"))

/-- The attributes of the `content` object that `save_knowledge_base_entry`
and `save_unified_knowledge` read before their failure points. -/
structure KBContent where
  url : Str
  title : Str
  categories : List Str
  summary : Option Str
  keywords : List Str
  last_modified : Option Str
  markdown : Option Str
  links : List Str
deriving DecidableEq, Repr

/-- `save_knowledge_base_entry` (src/websum.py lines 843-911), to the point
of its outcome.  The `kb_entry` dict literal evaluates its entries in
source order: the url/timestamp/title/categories/summary/keywords/
last_modified values are pure attribute reads; the nested `metadata` dict
then evaluates `re.search(r'```', content.markdown)`, which raises
`TypeError` when `markdown` is `None`; otherwise the first three metadata
entries are total regex calls and the fourth,
`extract_technical_terms(content.markdown)`, raises `NameError` (the name
is defined nowhere in the repository), before any file is opened. -/
def save_knowledge_base_entry (content : KBContent) : Except PyErr Unit :=
  match content.markdown with
  | none => .error .typeError
  | some _ => .error (.nameError (str "extract_technical_terms"))

/-- `save_unified_knowledge` (src/websum.py lines 913-1069), to the point
of its outcome.  The directory setup before the failure point does not
touch `content`; the first statement that does,
`filename = get_safe_filename(content.title, content.url)` at line 936,
evaluates the callee name first, and no `get_safe_filename` is defined or
imported in any module of the repository, so the call raises `NameError`
unconditionally. -/
def save_unified_knowledge (content : KBContent) : Except PyErr Unit :=
  .error (.nameError (str "get_safe_filename"))

/-- Sample content for concrete evaluations of the knowledge-base writers. -/
def sampleKB : KBContent :=
  { url := str "https://example.com/a"
    title := str "A Page"
    categories := []
    summary := none
    keywords := []
    last_modified := none
    markdown := some (str "hello world")
    links := [] }

/-! # Theorems -/

/-! ## C9: CrawlProgress -/

lemma pages_processed_apply_le (op : ProgressOp) (s : CrawlProgress) :
    s.pages_processed ≤ (op.apply s).pages_processed := by
  cases op <;> simp [ProgressOp.apply, CrawlProgress.update]

lemma pages_processed_runOps_le (ops : List ProgressOp) (s : CrawlProgress) :
    s.pages_processed ≤ (runProgressOps ops s).pages_processed := by
  induction ops generalizing s with
  | nil => simp [runProgressOps]
  | cons op ops ih =>
    calc s.pages_processed ≤ (op.apply s).pages_processed :=
          pages_processed_apply_le op s
      _ ≤ (runProgressOps ops (op.apply s)).pages_processed := ih _
      _ = (runProgressOps (op :: ops) s).pages_processed := by
          simp [runProgressOps]

/-- C9: over every sequence of `CrawlProgress` operations, `pages_processed`
is monotonically non-decreasing, and `should_process_more()` returns true
exactly when `page_limit` is `None` or `pages_processed < page_limit`. -/
theorem crawlProgress_monotone_and_gate :
    (∀ (ops : List ProgressOp) (s : CrawlProgress),
        s.pages_processed ≤ (runProgressOps ops s).pages_processed) ∧
    (∀ s : CrawlProgress,
        s.should_process_more = true ↔
          (s.page_limit = none ∨
            ∃ l, s.page_limit = some l ∧ s.pages_processed < l)) := by
  refine ⟨pages_processed_runOps_le, ?_⟩
  intro s
  cases h : s.page_limit with
  | none => simp [CrawlProgress.should_process_more, h]
  | some l =>
    simp only [CrawlProgress.should_process_more, h, decide_eq_true_eq]
    constructor
    · intro hlt
      exact Or.inr ⟨l, rfl, hlt⟩
    · rintro (hnone | ⟨l2, hl2, hlt⟩)
      · exact absurd hnone (by simp)
      · obtain rfl : l = l2 := by injection hl2
        exact hlt

/-! ## C8: standard-mode JSON sidecar fields -/

/-- C8 counterexample: the sidecar written by `save_to_knowledge_base` in
standard mode does not carry the claimed field list; it has a `media` field
and no `links` field. -/
theorem standard_sidecar_keys_counterexample :
    (standard_metadata sampleResult (str "2026-10-12T00:00:00+00:00")).map
        Prod.fst ≠ specSidecarKeys ∧
    (str "links") ∉
      (standard_metadata sampleResult (str "2026-10-12T00:00:00+00:00")).map
        Prod.fst := by
  decide

/-- C8 amended: in standard mode the JSON sidecar contains exactly the
fields url, title, timestamp, word_count, summary, last_modified and media
(an object with screenshot and pdf), in that order; there is no links
field. -/
theorem standard_sidecar_field_list (r : CrawlResultM) (now : Str) :
    (standard_metadata r now).map Prod.fst =
      [str "url", str "title", str "timestamp", str "word_count",
       str "summary", str "last_modified", str "media"] := by
  rfl

/-! ## C4: clean_text totality -/

/-- C4 counterexample: `clean_text(None)` raises `TypeError` (the source has
no falsy guard and immediately calls `re.sub` on its argument), so `None`
does not map to the empty string. -/
theorem clean_text_none_counterexample :
    clean_textO none ≠ Except.ok [] := by
  simp [clean_textO]

/-- C4 amended: `clean_text` is total on every actual string (its
regex substitutions, strip and replaces always succeed), and the empty
string maps to the empty string; a `None` argument, however, raises
`TypeError` instead of mapping to `""`. -/
theorem clean_text_total_on_strings :
    (∀ s : Str, ∃ t, clean_textO (some s) = Except.ok t) ∧
    clean_textO (some []) = Except.ok [] ∧
    clean_textO none = Except.error PyErr.typeError :=
  ⟨fun s => ⟨clean_text s, rfl⟩, rfl, rfl⟩

/-! ## C7: URLCache.merge -/

lemma hasUrl_nil (u : Str) : hasUrl [] u = false := rfl

lemma hasUrl_cons (k : Str) (d : CacheEntry) (rest : URLCacheMap) (u : Str) :
    hasUrl ((k, d) :: rest) u = (decide (k = u) || hasUrl rest u) := rfl

lemma countOf_nil (u : Str) : countOf [] u = 0 := rfl

lemma countOf_cons (k : Str) (d : CacheEntry) (rest : URLCacheMap) (u : Str) :
    countOf ((k, d) :: rest) u =
      if k = u then d.count else countOf rest u := rfl

lemma hasUrl_bumpCount (m : URLCacheMap) (u x : Str) (c : Nat) :
    hasUrl (bumpCount m u c) x = hasUrl m x := by
  induction m with
  | nil => rfl
  | cons e rest ih =>
    obtain ⟨k, d⟩ := e
    by_cases hk : k = u
    · rw [show bumpCount ((k, d) :: rest) u c =
          (k, { d with count := d.count + c }) :: rest by
            simp [bumpCount, hk]]
      rw [hasUrl_cons, hasUrl_cons]
    · rw [show bumpCount ((k, d) :: rest) u c =
          (k, d) :: bumpCount rest u c by simp [bumpCount, hk]]
      rw [hasUrl_cons, hasUrl_cons, ih]

lemma hasUrl_mergeStep (m : URLCacheMap) (e : Str × CacheEntry) (x : Str) :
    hasUrl (mergeStep m e) x = (hasUrl m x || decide (e.1 = x)) := by
  obtain ⟨k, d⟩ := e
  unfold mergeStep
  by_cases he : hasUrl m k
  · rw [if_pos (by simpa using he), hasUrl_bumpCount]
    by_cases hx : k = x
    · subst hx
      simp [he]
    · simp [hx]
  · rw [if_neg (by simpa using he)]
    unfold insertEntry hasUrl
    rw [List.any_append]
    simp

lemma hasUrl_merge (A B : URLCacheMap) (x : Str) :
    hasUrl (URLCache.merge A B) x = (hasUrl A x || hasUrl B x) := by
  induction B generalizing A with
  | nil => simp [URLCache.merge, hasUrl]
  | cons e B ih =>
    obtain ⟨k, d⟩ := e
    have h1 : URLCache.merge A ((k, d) :: B) =
        URLCache.merge (mergeStep A (k, d)) B := rfl
    rw [h1, ih, hasUrl_mergeStep, hasUrl_cons]
    by_cases hk : k = x
    · simp [hk]
    · simp [hk]

lemma countOf_eq_zero_of_not_hasUrl (m : URLCacheMap) (u : Str)
    (h : hasUrl m u = false) : countOf m u = 0 := by
  induction m with
  | nil => rfl
  | cons e rest ih =>
    obtain ⟨k, d⟩ := e
    rw [hasUrl_cons] at h
    simp only [Bool.or_eq_false_iff, decide_eq_false_iff_not] at h
    rw [countOf_cons, if_neg h.1]
    exact ih h.2

lemma countOf_bumpCount (m : URLCacheMap) (u x : Str) (c : Nat)
    (h : hasUrl m u = true) :
    countOf (bumpCount m u c) x =
      countOf m x + (if x = u then c else 0) := by
  induction m with
  | nil => simp [hasUrl] at h
  | cons e rest ih =>
    obtain ⟨k, d⟩ := e
    by_cases hk : k = u
    · subst hk
      rw [show bumpCount ((k, d) :: rest) k c =
          (k, { d with count := d.count + c }) :: rest by simp [bumpCount]]
      rw [countOf_cons, countOf_cons]
      by_cases hx : k = x
      · subst hx
        rw [if_pos rfl, if_pos rfl, if_pos rfl]
      · rw [if_neg hx, if_neg hx, if_neg (fun hh => hx hh.symm)]
        omega
    · rw [show bumpCount ((k, d) :: rest) u c =
          (k, d) :: bumpCount rest u c by simp [bumpCount, hk]]
      have h2 : hasUrl rest u = true := by
        rw [hasUrl_cons] at h
        rcases Bool.or_eq_true_iff.1 h with h3 | h3
        · exact absurd (of_decide_eq_true h3) hk
        · exact h3
      rw [countOf_cons, countOf_cons, ih h2]
      by_cases hx : k = x
      · rw [if_pos hx, if_pos hx]
        have hxu : ¬(x = u) := fun hh => hk (hx.trans hh)
        rw [if_neg hxu]
        omega
      · rw [if_neg hx, if_neg hx]

lemma countOf_append_single (m : URLCacheMap) (k : Str) (d : CacheEntry)
    (x : Str) (h : hasUrl m k = false) :
    countOf (m ++ [(k, d)]) x =
      countOf m x + (if x = k then d.count else 0) := by
  induction m with
  | nil =>
    rw [List.nil_append, countOf_nil, countOf_cons, countOf_nil]
    by_cases hx : x = k
    · rw [if_pos hx.symm, if_pos hx]
      omega
    · rw [if_neg (fun hh => hx hh.symm), if_neg hx]
  | cons e rest ih =>
    obtain ⟨k0, d0⟩ := e
    rw [hasUrl_cons] at h
    simp only [Bool.or_eq_false_iff, decide_eq_false_iff_not] at h
    rw [List.cons_append, countOf_cons, countOf_cons]
    by_cases hx : k0 = x
    · have hxk : ¬(x = k) := fun hh => h.1 (hx.trans hh)
      rw [if_pos hx, if_pos hx, if_neg hxk]
      omega
    · rw [if_neg hx, if_neg hx, ih h.2]

lemma countOf_mergeStep (m : URLCacheMap) (e : Str × CacheEntry) (x : Str) :
    countOf (mergeStep m e) x =
      countOf m x + (if x = e.1 then e.2.count else 0) := by
  obtain ⟨k, d⟩ := e
  unfold mergeStep
  by_cases he : hasUrl m k
  · rw [if_pos (by simpa using he)]
    exact countOf_bumpCount m k x d.count he
  · rw [if_neg (by simpa using he)]
    exact countOf_append_single m k d x (by simpa using he)

lemma countOf_merge (A B : URLCacheMap) (x : Str)
    (hB : (B.map Prod.fst).Nodup) :
    countOf (URLCache.merge A B) x = countOf A x + countOf B x := by
  induction B generalizing A with
  | nil => simp [URLCache.merge, countOf]
  | cons e B ih =>
    obtain ⟨k, d⟩ := e
    simp only [List.map_cons, List.nodup_cons] at hB
    have h1 : URLCache.merge A ((k, d) :: B) =
        URLCache.merge (mergeStep A (k, d)) B := rfl
    rw [h1, ih _ hB.2, countOf_mergeStep, countOf_cons]
    by_cases hx : x = k
    · subst hx
      have hxB : hasUrl B x = false := by
        rw [← Bool.not_eq_true]
        intro hc
        unfold hasUrl at hc
        rcases List.any_eq_true.1 hc with ⟨a, ha, hax⟩
        exact hB.1 (List.mem_map.2 ⟨a, ha, of_decide_eq_true hax⟩)
      rw [if_pos rfl, if_pos rfl, countOf_eq_zero_of_not_hasUrl B x hxB]
      dsimp only
      omega
    · rw [if_neg hx, if_neg (fun hh => hx hh.symm)]
      omega

lemma totalVisits_nil : totalVisits [] = 0 := rfl

lemma totalVisits_cons (k : Str) (d : CacheEntry) (rest : URLCacheMap) :
    totalVisits ((k, d) :: rest) = d.count + totalVisits rest := by
  simp [totalVisits]

lemma totalVisits_bumpCount (m : URLCacheMap) (u : Str) (c : Nat)
    (h : hasUrl m u = true) :
    totalVisits (bumpCount m u c) = totalVisits m + c := by
  induction m with
  | nil => simp [hasUrl] at h
  | cons e rest ih =>
    obtain ⟨k, d⟩ := e
    by_cases hk : k = u
    · rw [show bumpCount ((k, d) :: rest) u c =
          (k, { d with count := d.count + c }) :: rest by simp [bumpCount, hk]]
      rw [totalVisits_cons, totalVisits_cons]
      dsimp only
      omega
    · rw [show bumpCount ((k, d) :: rest) u c =
          (k, d) :: bumpCount rest u c by simp [bumpCount, hk]]
      have h2 : hasUrl rest u = true := by
        rw [hasUrl_cons] at h
        rcases Bool.or_eq_true_iff.1 h with h3 | h3
        · exact absurd (of_decide_eq_true h3) hk
        · exact h3
      rw [totalVisits_cons, totalVisits_cons, ih h2]
      omega

lemma totalVisits_mergeStep (m : URLCacheMap) (e : Str × CacheEntry) :
    totalVisits (mergeStep m e) = totalVisits m + e.2.count := by
  obtain ⟨k, d⟩ := e
  unfold mergeStep
  by_cases he : hasUrl m k
  · rw [if_pos (by simpa using he)]
    exact totalVisits_bumpCount m k d.count he
  · rw [if_neg (by simpa using he)]
    unfold insertEntry totalVisits
    rw [List.map_append, List.sum_append]
    simp

lemma totalVisits_merge (A B : URLCacheMap) :
    totalVisits (URLCache.merge A B) = totalVisits A + totalVisits B := by
  induction B generalizing A with
  | nil => simp [URLCache.merge, totalVisits]
  | cons e B ih =>
    obtain ⟨k, d⟩ := e
    have h1 : URLCache.merge A ((k, d) :: B) =
        URLCache.merge (mergeStep A (k, d)) B := rfl
    rw [h1, ih, totalVisits_mergeStep, totalVisits_cons]
    dsimp only
    omega

/-- C7: `URLCache.merge` loses no entries (a URL is present in the result
exactly when it is present in either side), the resulting visit count of
every URL is the sum of both sides' counts, and the total visit count is
the same whichever direction the merge is performed. -/
theorem urlcache_merge_no_loss_sum_comm (A B : URLCacheMap)
    (hB : (B.map Prod.fst).Nodup) :
    (∀ u, hasUrl (URLCache.merge A B) u = (hasUrl A u || hasUrl B u)) ∧
    (∀ u, countOf (URLCache.merge A B) u = countOf A u + countOf B u) ∧
    totalVisits (URLCache.merge A B) = totalVisits (URLCache.merge B A) := by
  refine ⟨fun u => hasUrl_merge A B u, fun u => countOf_merge A B u hB, ?_⟩
  rw [totalVisits_merge, totalVisits_merge, Nat.add_comm]

/-- C7 witness: the merge properties evaluated on the concrete caches
`cacheA` and `cacheB`. -/
theorem urlcache_merge_witness :
    hasUrl (URLCache.merge cacheA cacheB) (str "https://a.com/z") =
      (hasUrl cacheA (str "https://a.com/z") ||
        hasUrl cacheB (str "https://a.com/z")) ∧
    countOf (URLCache.merge cacheA cacheB) (str "https://a.com/y") =
      countOf cacheA (str "https://a.com/y") +
        countOf cacheB (str "https://a.com/y") ∧
    totalVisits (URLCache.merge cacheA cacheB) =
      totalVisits (URLCache.merge cacheB cacheA) := by
  have h := urlcache_merge_no_loss_sum_comm cacheA cacheB (by decide)
  exact ⟨h.1 _, h.2.1 _, h.2.2⟩

/-! ## C1: clean_markdown idempotence -/

lemma anyPos_false_cons {p : Str → Bool} {c : Char} {v : Str}
    (h : anyPos p (c :: v) = false) : p (c :: v) = false ∧ anyPos p v = false := by
  simpa [anyPos] using h

lemma anyPos_false_of_append_right {p : Str → Bool} (a : Str) {b : Str}
    (h : anyPos p (a ++ b) = false) : anyPos p b = false := by
  induction a with
  | nil => simpa using h
  | cons c a ih =>
    rw [List.cons_append] at h
    exact ih (anyPos_false_cons h).2

lemma anyPos_false_of_suffix {p : Str → Bool} {v w : Str}
    (hs : w <:+ v) (h : anyPos p v = false) : anyPos p w = false := by
  obtain ⟨a, rfl⟩ := hs
  exact anyPos_false_of_append_right a h

lemma anyPos_false_of_prefix {p : Str → Bool}
    (hp : ∀ t e, p t = true → p (t ++ e) = true) {v w : Str}
    (hw : w <+: v) (h : anyPos p v = false) : anyPos p w = false := by
  obtain ⟨e, rfl⟩ := hw
  induction w with
  | nil => rfl
  | cons c w ih =>
    rw [List.cons_append] at h
    obtain ⟨h1, h2⟩ := anyPos_false_cons h
    rw [anyPos]
    have hc : p (c :: w) = false := by
      by_contra hc
      rw [Bool.not_eq_false] at hc
      have h3 := hp (c :: w) e hc
      rw [List.cons_append] at h3
      rw [h3] at h1
      simp at h1
    rw [hc, ih h2]
    rfl

lemma has3At_extend (t e : Str) (h : has3At t = true) : has3At (t ++ e) = true := by
  match t with
  | a :: b :: c :: rest => simpa [has3At] using h
  | [] | [a] | [a, b] => simp [has3At] at h

lemma hasTWAt_extend (t e : Str) (h : hasTWAt t = true) :
    hasTWAt (t ++ e) = true := by
  match t with
  | a :: b :: rest => simpa [hasTWAt] using h
  | [a] => simp [hasTWAt] at h
  | [] => simp [hasTWAt] at h

lemma dropWhile_append_of_ne_nil {p : Char → Bool} {xs : Str} (ys : Str)
    (h : xs.dropWhile p ≠ []) :
    (xs ++ ys).dropWhile p = xs.dropWhile p ++ ys := by
  rw [List.dropWhile_append]
  simp [List.isEmpty_iff, h]

lemma hasShapeAt_extend (t e : Str) (h : hasShapeAt t = true) :
    hasShapeAt (t ++ e) = true := by
  match t with
  | a :: b :: rest =>
    simp only [hasShapeAt, Bool.and_eq_true, decide_eq_true_eq] at h
    obtain ⟨⟨ha, hb⟩, hs⟩ := h
    have hne : rest.dropWhile (fun x => x != '\n') ≠ [] := by
      intro hnil
      rw [hnil] at hs
      simp [shapeTail] at hs
    rw [List.cons_append, List.cons_append]
    simp only [hasShapeAt, ha, hb, Bool.and_eq_true, decide_eq_true_eq]
    refine ⟨⟨trivial, trivial⟩, ?_⟩
    rw [dropWhile_append_of_ne_nil e hne]
    match hd : rest.dropWhile (fun x => x != '\n') with
    | a2 :: b2 :: r2 => rw [hd] at hs; simpa [shapeTail] using hs
    | [a2] => rw [hd] at hs; simp [shapeTail] at hs
    | [] => exact absurd hd hne
  | [a] => simp [hasShapeAt] at h
  | [] => simp [hasShapeAt] at h

lemma hasAdjAt_extend (t e : Str) (h : hasAdjAt t = true) :
    hasAdjAt (t ++ e) = true := by
  match t with
  | a :: b :: rest =>
    simp only [hasAdjAt, Bool.and_eq_true, decide_eq_true_eq] at h
    obtain ⟨⟨ha, hb⟩, hs⟩ := h
    have hne : rest.dropWhile (fun x => x != '\n') ≠ [] := by
      intro hnil
      rw [hnil] at hs
      simp [adjTail] at hs
    rw [List.cons_append, List.cons_append]
    simp only [hasAdjAt, ha, hb, Bool.and_eq_true, decide_eq_true_eq]
    refine ⟨⟨trivial, trivial⟩, ?_⟩
    rw [dropWhile_append_of_ne_nil e hne]
    match hd : rest.dropWhile (fun x => x != '\n') with
    | a2 :: b2 :: r2 => rw [hd] at hs; simpa [adjTail] using hs
    | [a2] => rw [hd] at hs; simp [adjTail] at hs
    | [] => exact absurd hd hne
  | [a] => simp [hasAdjAt] at h
  | [] => simp [hasAdjAt] at h

lemma crlfSub_cons_of_ne (c : Char) (cs : Str) (hc : c ≠ '\r') :
    crlfSub (c :: cs) = c :: crlfSub cs := by
  rw [crlfSub.eq_def]
  split
  · next heq => simp at heq
  · next r heq =>
    rw [List.cons_eq_cons] at heq
    exact absurd heq.1 hc
  · next c2 r2 hnp h1 =>
    rw [List.cons_eq_cons] at h1
    obtain ⟨rfl, rfl⟩ := h1
    rfl

lemma crlfSub_id (v : Str) (h : '\r' ∉ v) : crlfSub v = v := by
  induction v with
  | nil => rfl
  | cons c cs ih =>
    have hc : c ≠ '\r' := fun hh => h (hh ▸ List.mem_cons_self _ _)
    have hcs : '\r' ∉ cs := fun hm => h (List.mem_cons_of_mem c hm)
    rw [crlfSub_cons_of_ne c cs hc, ih hcs]

lemma lead3_has3At (w : Str) (h : 3 ≤ (w.takeWhile isNl).length) :
    has3At w = true := by
  match w with
  | [] => simp [List.takeWhile] at h
  | [a] =>
    by_cases ha : isNl a <;> simp [List.takeWhile, ha] at h
  | [a, b] =>
    by_cases ha : isNl a <;> by_cases hb : isNl b <;>
      simp [List.takeWhile, ha, hb] at h
  | a :: b :: c :: r =>
    by_cases ha : isNl a
    · by_cases hb : isNl b
      · by_cases hc : isNl c
        · simp only [isNl, decide_eq_true_eq] at ha hb hc
          simp [has3At, ha, hb, hc]
        · simp [List.takeWhile, ha, hb, hc] at h
      · simp [List.takeWhile, ha, hb] at h
    · simp [List.takeWhile, ha] at h

lemma has3_lead_le (w : Str) (h : anyPos has3At w = false) :
    (w.takeWhile isNl).length ≤ 2 := by
  by_contra hc
  push_neg at hc
  have h3 := lead3_has3At w hc
  match w with
  | [] => simp [List.takeWhile] at hc
  | c :: rest =>
    rw [anyPos, h3] at h
    simp at h

lemma flushNl_of_le (k : Nat) (h : k ≤ 2) : flushNl k = List.replicate k '\n' := by
  unfold flushNl
  rw [if_neg (by omega)]

lemma collapseNlAux_id (v : Str) : ∀ k, anyPos has3At v = false →
    k + (v.takeWhile isNl).length ≤ 2 →
    collapseNlAux k v = List.replicate k '\n' ++ v := by
  induction v with
  | nil =>
    intro k h hk
    rw [collapseNlAux, flushNl_of_le k (by simpa using hk), List.append_nil]
  | cons c cs ih =>
    intro k h hk
    by_cases hc : c = '\n'
    · subst hc
      rw [show collapseNlAux k ('\n' :: cs) = collapseNlAux (k + 1) cs by
        simp [collapseNlAux]]
      have hk2 : (k + 1) + (cs.takeWhile isNl).length ≤ 2 := by
        simp [List.takeWhile, isNl] at hk
        omega
      rw [ih (k + 1) (anyPos_false_cons h).2 hk2, List.replicate_succ']
      simp
    · rw [show collapseNlAux k (c :: cs) =
          flushNl k ++ c :: collapseNlAux 0 cs by simp [collapseNlAux, hc]]
      have hlead : (cs.takeWhile isNl).length ≤ 2 :=
        has3_lead_le cs (anyPos_false_cons h).2
      rw [ih 0 (anyPos_false_cons h).2 (by omega)]
      have hk0 : k ≤ 2 := by
        simp [List.takeWhile, isNl, hc] at hk
        omega
      rw [flushNl_of_le k hk0]
      simp

lemma collapseNl_id (v : Str) (h : anyPos has3At v = false) :
    collapseNl v = v := by
  have hlead : (v.takeWhile isNl).length ≤ 2 := has3_lead_le v h
  rw [collapseNl, collapseNlAux_id v 0 h (by omega)]
  rfl

lemma has3At_cons_false {c : Char} (X : Str) (hc : c ≠ '\n') :
    has3At (c :: X) = false := by
  match X with
  | [] => rfl
  | [b] => rfl
  | b :: d :: r => simp [has3At, hc]

lemma anyPos_has3At_flush_cons (k : Nat) (c : Char) (X : Str)
    (hc : c ≠ '\n') (hX : anyPos has3At X = false) :
    anyPos has3At (flushNl k ++ c :: X) = false := by
  have hcX : anyPos has3At (c :: X) = false := by
    rw [anyPos, has3At_cons_false X hc, hX]
    rfl
  by_cases h3 : 3 ≤ k
  · rw [show flushNl k = ['\n', '\n'] by simp [flushNl, h3]]
    rw [List.cons_append, List.cons_append, List.nil_append]
    rw [anyPos, anyPos]
    rw [show has3At ('\n' :: '\n' :: c :: X) = false by simp [has3At, hc]]
    rw [show has3At ('\n' :: c :: X) = false by
      match X with
      | [] => rfl
      | b :: r => simp [has3At, hc]]
    rw [hcX]
    rfl
  · rw [flushNl_of_le k (by omega)]
    interval_cases k
    · simpa using hcX
    · rw [show List.replicate 1 '\n' = ['\n'] from rfl]
      rw [List.cons_append, List.nil_append, anyPos]
      rw [show has3At ('\n' :: c :: X) = false by
        match X with
        | [] => rfl
        | b :: r => simp [has3At, hc]]
      rw [hcX]
      rfl
    · rw [show List.replicate 2 '\n' = ['\n', '\n'] from rfl]
      rw [List.cons_append, List.cons_append, List.nil_append, anyPos, anyPos]
      rw [show has3At ('\n' :: '\n' :: c :: X) = false by simp [has3At, hc]]
      rw [show has3At ('\n' :: c :: X) = false by
        match X with
        | [] => rfl
        | b :: r => simp [has3At, hc]]
      rw [hcX]
      rfl

lemma anyPos_has3At_flush (k : Nat) :
    anyPos has3At (flushNl k) = false := by
  by_cases h3 : 3 ≤ k
  · rw [show flushNl k = ['\n', '\n'] by simp [flushNl, h3]]
    rfl
  · rw [flushNl_of_le k (by omega)]
    interval_cases k <;> rfl

lemma collapseNlAux_no3 (v : Str) : ∀ k,
    anyPos has3At (collapseNlAux k v) = false := by
  induction v with
  | nil =>
    intro k
    rw [collapseNlAux]
    exact anyPos_has3At_flush k
  | cons c cs ih =>
    intro k
    by_cases hc : c = '\n'
    · subst hc
      rw [show collapseNlAux k ('\n' :: cs) = collapseNlAux (k + 1) cs by
        simp [collapseNlAux]]
      exact ih (k + 1)
    · rw [show collapseNlAux k (c :: cs) =
          flushNl k ++ c :: collapseNlAux 0 cs by simp [collapseNlAux, hc]]
      exact anyPos_has3At_flush_cons k c _ hc (ih 0)

lemma collapseNl_no3 (v : Str) : anyPos has3At (collapseNl v) = false :=
  collapseNlAux_no3 v 0

lemma trailWsAux_id : ∀ (v pend : Str), (∀ a ∈ pend, isSpTab a = true) →
    anyPos hasTWAt (pend.reverse ++ v) = false →
    trailWsAux pend v = pend.reverse ++ v := by
  intro v
  induction v with
  | nil =>
    intro pend hp h
    rw [trailWsAux, List.append_nil]
  | cons c cs ih =>
    intro pend hp h
    by_cases hst : isSpTab c
    · rw [show trailWsAux pend (c :: cs) = trailWsAux (c :: pend) cs by
        simp [trailWsAux, hst]]
      have hp2 : ∀ a ∈ c :: pend, isSpTab a = true := by
        intro a ha
        rcases List.mem_cons.1 ha with rfl | ha2
        · exact hst
        · exact hp a ha2
      have heq : (c :: pend).reverse ++ cs = pend.reverse ++ c :: cs := by
        rw [List.reverse_cons, List.append_assoc]
        rfl
      rw [ih (c :: pend) hp2 (by rw [heq]; exact h), heq]
    · by_cases hnl : c = '\n'
      · subst hnl
        match pend with
        | [] =>
          rw [show trailWsAux [] ('\n' :: cs) = '\n' :: trailWsAux [] cs by
            simp [trailWsAux, isSpTab]]
          simp only [List.reverse_nil, List.nil_append] at h ⊢
          rw [ih [] (by intro a ha; simp at ha) (by
            simp only [List.reverse_nil, List.nil_append]
            exact (anyPos_false_cons h).2)]
          simp
        | p :: ps =>
          exfalso
          have hsuf : hasTWAt (p :: '\n' :: cs) = true := by
            simp [hasTWAt, hp p (List.mem_cons_self _ _)]
          have hsfx : (p :: '\n' :: cs) <:+ ((p :: ps).reverse ++ '\n' :: cs) := by
            rw [List.reverse_cons, List.append_assoc]
            exact ⟨ps.reverse, rfl⟩
          have := anyPos_false_of_suffix hsfx h
          rw [anyPos, hsuf] at this
          simp at this
      · rw [show trailWsAux pend (c :: cs) =
            pend.reverse ++ c :: trailWsAux [] cs by
          simp [trailWsAux, hst, hnl]]
        have hcs : anyPos hasTWAt cs = false := by
          have hsfx : (c :: cs) <:+ (pend.reverse ++ c :: cs) := ⟨pend.reverse, rfl⟩
          exact (anyPos_false_cons (anyPos_false_of_suffix hsfx h)).2
        rw [ih [] (by intro a ha; simp at ha) (by simpa using hcs)]
        rfl

lemma trailWsSub_id (v : Str) (h : anyPos hasTWAt v = false) :
    trailWsSub v = v := by
  rw [trailWsSub, trailWsAux_id v [] (by intro a ha; simp at ha) (by simpa using h)]
  rfl

lemma hdrScan_head (b : Bool) (v : Str) : (hdrScan b v).head? = v.head? := by
  induction b, v using hdrScan.induct with
  | case1 => rfl
  | case2 rest h ih => rw [hdrScan.eq_2, if_pos h]; rfl
  | case3 rest h ih => rw [hdrScan.eq_2, if_neg h]; rfl
  | case4 c rest hc ih => rw [hdrScan.eq_3 c rest hc]; rfl
  | case5 => rfl
  | case6 => rfl
  | case7 tail ih => rw [hdrScan.eq_6, if_pos rfl]; rfl
  | case8 c tail hc ih => rw [hdrScan.eq_6, if_neg hc]; rfl
  | case9 c rest h1 h2 ih => rw [hdrScan.eq_7 c rest h1 h2]; rfl

lemma hasShapeAt_cons_ne_nl {c : Char} (X : Str) (hc : c ≠ '\n') :
    hasShapeAt (c :: X) = false := by
  match X with
  | [] => rfl
  | x :: X2 => simp [hasShapeAt, hc]

lemma hasAdjAt_cons_ne_nl {c : Char} (X : Str) (hc : c ≠ '\n') :
    hasAdjAt (c :: X) = false := by
  match X with
  | [] => rfl
  | x :: X2 => simp [hasAdjAt, hc]

lemma hasShapeAt_nl_cons_ne_hash {x : Char} (X : Str) (hx : x ≠ '#') :
    hasShapeAt ('\n' :: x :: X) = false := by
  simp [hasShapeAt, hx]

lemma dropWhile_append_all {p : Char → Bool} {L : Str} (M : Str)
    (hL : ∀ a ∈ L, p a = true) :
    (L ++ M).dropWhile p = M.dropWhile p := by
  induction L with
  | nil => rfl
  | cons a L ih =>
    rw [List.cons_append, List.dropWhile_cons,
      if_pos (hL a (List.mem_cons_self _ _)),
      ih (fun b hb => hL b (List.mem_cons_of_mem a hb))]

lemma hdrScan_true_decomp (v : Str) :
    hdrScan true v =
      v.takeWhile (fun x => x != '\n') ++
        hdrTail (v.dropWhile (fun x => x != '\n')) := by
  induction v with
  | nil => rfl
  | cons c rest ih =>
    by_cases hc : c = '\n'
    · subst hc
      rw [show List.takeWhile (fun x => x != '\n') ('\n' :: rest) = [] by
        simp [List.takeWhile]]
      rw [show List.dropWhile (fun x => x != '\n') ('\n' :: rest) = '\n' :: rest by
        simp [List.dropWhile]]
      rw [List.nil_append]
      match rest with
      | [] => rfl
      | c2 :: tail =>
        rw [hdrScan.eq_6, hdrTail]
    · have h1 : (c = '\n' → rest = [] → False) := fun hh _ => hc hh
      have h2 : (∀ c1 t, c = '\n' → rest = c1 :: t → False) := fun _ _ hh _ => hc hh
      have hb : (c != '\n') = true := by simp [hc]
      rw [hdrScan.eq_7 c rest h1 h2, ih]
      rw [show List.takeWhile (fun x => x != '\n') (c :: rest) =
          c :: List.takeWhile (fun x => x != '\n') rest by
        rw [List.takeWhile_cons, if_pos hb]]
      rw [show List.dropWhile (fun x => x != '\n') (c :: rest) =
          List.dropWhile (fun x => x != '\n') rest by
        rw [List.dropWhile_cons, if_pos hb]]
      rfl

lemma dropWhile_head_false {p : Char → Bool} (v : Str) {c : Char} {cs : Str}
    (h : v.dropWhile p = c :: cs) : p c = false := by
  induction v with
  | nil => simp [List.dropWhile] at h
  | cons a v ih =>
    rw [List.dropWhile_cons] at h
    by_cases hp : p a
    · rw [if_pos hp] at h
      exact ih h
    · rw [if_neg hp] at h
      rw [List.cons_eq_cons] at h
      rw [← h.1]
      simpa using hp

lemma shapeTail_hdrTail_drop (rest : Str) :
    shapeTail ((hdrTail (rest.dropWhile (fun x => x != '\n'))).dropWhile
      (fun x => x != '\n')) = false := by
  match hd : rest.dropWhile (fun x => x != '\n') with
  | [] => rfl
  | c :: cs =>
    have hc : (c != '\n') = false :=
      @dropWhile_head_false (fun x => x != '\n') rest c cs hd
    have hc2 : c = '\n' := by simpa using hc
    subst hc2
    match cs with
    | [] => rfl
    | c2 :: tail =>
      by_cases h2 : c2 = '\n'
      · subst h2
        rw [show hdrTail ('\n' :: '\n' :: tail) =
            '\n' :: hdrScan false ('\n' :: tail) by simp [hdrTail]]
        rw [show List.dropWhile (fun x => x != '\n')
              ('\n' :: hdrScan false ('\n' :: tail)) =
            '\n' :: hdrScan false ('\n' :: tail) by simp [List.dropWhile]]
        have hh : (hdrScan false ('\n' :: tail)).head? = some '\n' :=
          hdrScan_head false ('\n' :: tail)
        match hm : hdrScan false ('\n' :: tail) with
        | [] => simp [hm] at hh
        | y :: Y =>
          rw [hm] at hh
          simp only [List.head?_cons, Option.some.injEq] at hh
          subst hh
          simp [shapeTail]
      · rw [show hdrTail ('\n' :: c2 :: tail) =
            '\n' :: '\n' :: c2 :: hdrScan false tail by simp [hdrTail, h2]]
        rw [show List.dropWhile (fun x => x != '\n')
              ('\n' :: '\n' :: c2 :: hdrScan false tail) =
            '\n' :: '\n' :: c2 :: hdrScan false tail by simp [List.dropWhile]]
        simp [shapeTail]

lemma hdrTail_drop_cases (rest : Str) :
    hdrTail (rest.dropWhile (fun x => x != '\n')) = [] ∨
    (hdrTail (rest.dropWhile (fun x => x != '\n'))).head? = some '\n' := by
  match hd : rest.dropWhile (fun x => x != '\n') with
  | [] => exact Or.inl rfl
  | c :: cs =>
    have hc : (c != '\n') = false :=
      @dropWhile_head_false (fun x => x != '\n') rest c cs hd
    have hc2 : c = '\n' := by simpa using hc
    subst hc2
    match cs with
    | [] => exact Or.inr rfl
    | c2 :: tail =>
      right
      by_cases h2 : c2 = '\n'
      · subst h2
        rw [show hdrTail ('\n' :: '\n' :: tail) =
            '\n' :: hdrScan false ('\n' :: tail) by simp [hdrTail]]
        rfl
      · rw [show hdrTail ('\n' :: c2 :: tail) =
            '\n' :: '\n' :: c2 :: hdrScan false tail by simp [hdrTail, h2]]
        rfl

lemma hasShapeAt_nl_hdrTrue (rest : Str) :
    hasShapeAt ('\n' :: hdrScan true rest) = false := by
  rw [hdrScan_true_decomp rest]
  have hLnl : ∀ a ∈ rest.takeWhile (fun x => x != '\n'), (a != '\n') = true := by
    intro a ha
    have h2 := List.mem_takeWhile_imp ha
    exact h2
  match hL : rest.takeWhile (fun x => x != '\n') with
  | [] =>
    rw [List.nil_append]
    rcases hdrTail_drop_cases rest with hT | hT
    · rw [hT]
      rfl
    · match hm : hdrTail (rest.dropWhile (fun x => x != '\n')) with
      | [] => simp [hm] at hT
      | y :: Y =>
        rw [hm] at hT
        simp only [List.head?_cons, Option.some.injEq] at hT
        subst hT
        exact hasShapeAt_nl_cons_ne_hash Y (by decide)
  | l0 :: L2 =>
    rw [List.cons_append]
    by_cases h0 : l0 = '#'
    · subst h0
      rw [show hasShapeAt ('\n' :: '#' ::
            (L2 ++ hdrTail (rest.dropWhile (fun x => x != '\n')))) =
          shapeTail ((L2 ++ hdrTail (rest.dropWhile (fun x => x != '\n'))).dropWhile
            (fun x => x != '\n')) by simp [hasShapeAt]]
      rw [dropWhile_append_all _ (by
        intro a ha
        exact hLnl a (by rw [hL]; exact List.mem_cons_of_mem _ ha))]
      exact shapeTail_hdrTail_drop rest
    · exact hasShapeAt_nl_cons_ne_hash _ h0

lemma anyPos_cons (p : Str → Bool) (c : Char) (v : Str) :
    anyPos p (c :: v) = (p (c :: v) || anyPos p v) := rfl

lemma head_of_head? {v : Str} {c : Char} (h : v.head? = some c) :
    ∃ w, v = c :: w := by
  match v with
  | [] => simp at h
  | a :: w =>
    simp only [List.head?_cons, Option.some.injEq] at h
    exact ⟨w, by rw [h]⟩

lemma hdrScan_no_shape (b : Bool) (v : Str)
    (h1 : anyPos hasAdjAt v = false)
    (h2 : b = true → adjTail (v.dropWhile (fun x => x != '\n')) = false) :
    anyPos hasShapeAt (hdrScan b v) = false := by
  induction b, v using hdrScan.induct with
  | case1 => rfl
  | case2 rest hh ih =>
    obtain ⟨rest2, rfl⟩ := head_of_head? hh
    rw [hdrScan.eq_2, if_pos hh, anyPos_cons, hasShapeAt_nl_hdrTrue]
    have hadj : hasAdjAt ('\n' :: '#' :: rest2) = false :=
      (anyPos_false_cons h1).1
    have hadj2 : adjTail (rest2.dropWhile (fun x => x != '\n')) = false := by
      simpa [hasAdjAt] using hadj
    rw [ih (anyPos_false_cons h1).2 (fun _ => by
      rw [List.dropWhile_cons, if_pos (by decide)]
      exact hadj2)]
    rfl
  | case3 rest hh ih =>
    rw [hdrScan.eq_2, if_neg hh, anyPos_cons]
    have hfirst : hasShapeAt ('\n' :: hdrScan false rest) = false := by
      have hhead := hdrScan_head false rest
      match hm : hdrScan false rest with
      | [] => rfl
      | x :: X =>
        rw [hm] at hhead
        have hx : rest.head? = some x := by rw [← hhead]; rfl
        have hxne : x ≠ '#' := fun hc => hh (hc ▸ hx)
        exact hasShapeAt_nl_cons_ne_hash X hxne
    rw [hfirst, ih (anyPos_false_cons h1).2 (fun hc => by simp at hc)]
    rfl
  | case4 c rest hc ih =>
    rw [hdrScan.eq_3 c rest hc, anyPos_cons]
    rw [hasShapeAt_cons_ne_nl _ (fun hh => hc hh)]
    rw [ih (anyPos_false_cons h1).2 (fun hcc => by simp at hcc)]
    rfl
  | case5 => rfl
  | case6 => rfl
  | case7 tail ih =>
    rw [hdrScan.eq_6, if_pos rfl, anyPos_cons]
    have hfirst : hasShapeAt ('\n' :: hdrScan false ('\n' :: tail)) = false := by
      have hhead := hdrScan_head false ('\n' :: tail)
      match hm : hdrScan false ('\n' :: tail) with
      | [] => rfl
      | x :: X =>
        rw [hm] at hhead
        simp only [List.head?_cons, Option.some.injEq] at hhead
        subst hhead
        exact hasShapeAt_nl_cons_ne_hash X (by decide)
    rw [hfirst, ih (anyPos_false_cons h1).2 (fun hc => by simp at hc)]
    rfl
  | case8 c tail hc ih =>
    rw [hdrScan.eq_6, if_neg hc]
    have hcne : c ≠ '#' := by
      have hat := h2 rfl
      rw [show List.dropWhile (fun x => x != '\n') ('\n' :: c :: tail) =
          '\n' :: c :: tail by simp [List.dropWhile]] at hat
      intro hcc
      subst hcc
      simp [adjTail] at hat
    rw [anyPos_cons, anyPos_cons, anyPos_cons]
    rw [show hasShapeAt ('\n' :: '\n' :: c :: hdrScan false tail) = false by
      exact hasShapeAt_nl_cons_ne_hash _ (by decide)]
    rw [show hasShapeAt ('\n' :: c :: hdrScan false tail) = false by
      exact hasShapeAt_nl_cons_ne_hash _ hcne]
    rw [hasShapeAt_cons_ne_nl _ hc]
    have h1tail : anyPos hasAdjAt tail = false :=
      (anyPos_false_cons (anyPos_false_cons h1).2).2
    rw [ih h1tail (fun hcc => by simp at hcc)]
    rfl
  | case9 c rest hg1 hg2 ih =>
    have hc : c ≠ '\n' := by
      intro hcc
      match rest with
      | [] => exact hg1 hcc rfl
      | r :: rr => exact hg2 r rr hcc rfl
    rw [hdrScan.eq_7 c rest hg1 hg2, anyPos_cons]
    rw [hasShapeAt_cons_ne_nl _ hc]
    rw [ih (anyPos_false_cons h1).2 (fun _ => by
      have hat := h2 rfl
      rw [show List.dropWhile (fun x => x != '\n') (c :: rest) =
          List.dropWhile (fun x => x != '\n') rest by
        rw [List.dropWhile_cons, if_pos (by simp [hc])]] at hat
      exact hat)]
    rfl

lemma hdrScan_id (b : Bool) (v : Str)
    (h1 : anyPos hasShapeAt v = false)
    (h2 : b = true → shapeTail (v.dropWhile (fun x => x != '\n')) = false) :
    hdrScan b v = v := by
  induction b, v using hdrScan.induct with
  | case1 => rfl
  | case2 rest hh ih =>
    obtain ⟨rest2, rfl⟩ := head_of_head? hh
    rw [hdrScan.eq_2, if_pos hh]
    have hsh : hasShapeAt ('\n' :: '#' :: rest2) = false :=
      (anyPos_false_cons h1).1
    have hsh2 : shapeTail (rest2.dropWhile (fun x => x != '\n')) = false := by
      simpa [hasShapeAt] using hsh
    rw [ih (anyPos_false_cons h1).2 (fun _ => by
      rw [List.dropWhile_cons, if_pos (by decide)]
      exact hsh2)]
  | case3 rest hh ih =>
    rw [hdrScan.eq_2, if_neg hh]
    rw [ih (anyPos_false_cons h1).2 (fun hc => by simp at hc)]
  | case4 c rest hc ih =>
    rw [hdrScan.eq_3 c rest hc]
    rw [ih (anyPos_false_cons h1).2 (fun hcc => by simp at hcc)]
  | case5 => rfl
  | case6 => rfl
  | case7 tail ih =>
    rw [hdrScan.eq_6, if_pos rfl]
    rw [ih (anyPos_false_cons h1).2 (fun hc => by simp at hc)]
  | case8 c tail hc ih =>
    exfalso
    have hat := h2 rfl
    rw [show List.dropWhile (fun x => x != '\n') ('\n' :: c :: tail) =
        '\n' :: c :: tail by simp [List.dropWhile]] at hat
    simp [shapeTail, hc] at hat
  | case9 c rest hg1 hg2 ih =>
    have hc : c ≠ '\n' := by
      intro hcc
      match rest with
      | [] => exact hg1 hcc rfl
      | r :: rr => exact hg2 r rr hcc rfl
    rw [hdrScan.eq_7 c rest hg1 hg2]
    rw [ih (anyPos_false_cons h1).2 (fun _ => by
      have hat := h2 rfl
      rw [show List.dropWhile (fun x => x != '\n') (c :: rest) =
          List.dropWhile (fun x => x != '\n') rest by
        rw [List.dropWhile_cons, if_pos (by simp [hc])]] at hat
      exact hat)]

lemma has3At_false_2 {b : Char} (a : Char) (X : Str) (hb : b ≠ '\n') :
    has3At (a :: b :: X) = false := by
  match X with
  | [] => rfl
  | c :: r => simp [has3At, hb]

lemma has3At_false_3 {c : Char} (a b : Char) (X : Str) (hc : c ≠ '\n') :
    has3At (a :: b :: c :: X) = false := by
  simp [has3At, hc]

lemma hdrScan_false_nl (rest : Str) :
    ∃ b2, hdrScan false ('\n' :: rest) = '\n' :: hdrScan b2 rest := by
  rw [hdrScan.eq_2]
  by_cases hh : rest.head? = some '#'
  · exact ⟨true, by rw [if_pos hh]⟩
  · exact ⟨false, by rw [if_neg hh]⟩

lemma hdrScan_no3 (b : Bool) (v : Str) (h : anyPos has3At v = false) :
    anyPos has3At (hdrScan b v) = false := by
  induction b, v using hdrScan.induct with
  | case1 => rfl
  | case2 rest hh ih =>
    obtain ⟨rest2, rfl⟩ := head_of_head? hh
    rw [hdrScan.eq_2, if_pos hh, anyPos_cons]
    have hx : (hdrScan true ('#' :: rest2)).head? = some '#' :=
      hdrScan_head true ('#' :: rest2)
    obtain ⟨X, hX⟩ := head_of_head? hx
    rw [hX, has3At_false_2 '\n' X (by decide), ← hX,
      ih (anyPos_false_cons h).2]
    rfl
  | case3 rest hh ih =>
    rw [hdrScan.eq_2, if_neg hh, anyPos_cons, ih (anyPos_false_cons h).2]
    have hfirst : has3At ('\n' :: hdrScan false rest) = false := by
      match rest with
      | [] => rfl
      | x :: rest2 =>
        by_cases hx : x = '\n'
        · subst hx
          obtain ⟨b2, hb2⟩ := hdrScan_false_nl rest2
          rw [hb2]
          have hy : (hdrScan b2 rest2).head? = rest2.head? := hdrScan_head b2 rest2
          match hm : hdrScan b2 rest2 with
          | [] => rfl
          | y :: Y =>
            rw [hm] at hy
            have hyne : y ≠ '\n' := by
              intro hcc
              subst hcc
              obtain ⟨R, hR⟩ := head_of_head? hy.symm
              rw [hR] at h
              exact absurd (by rw [anyPos_cons] at h; exact h)
                (by simp [has3At])
            exact has3At_false_3 '\n' '\n' Y hyne
        · have hy : (hdrScan false (x :: rest2)).head? = some x :=
            hdrScan_head false (x :: rest2)
          obtain ⟨Y, hY⟩ := head_of_head? hy
          rw [hY]
          exact has3At_false_2 '\n' Y hx
    rw [hfirst]
    rfl
  | case4 c rest hc ih =>
    rw [hdrScan.eq_3 c rest hc, anyPos_cons,
      has3At_cons_false _ (fun hh => hc hh), ih (anyPos_false_cons h).2]
    rfl
  | case5 => rfl
  | case6 => rfl
  | case7 tail ih =>
    rw [hdrScan.eq_6, if_pos rfl, anyPos_cons, ih (anyPos_false_cons h).2]
    have hfirst : has3At ('\n' :: hdrScan false ('\n' :: tail)) = false := by
      obtain ⟨b2, hb2⟩ := hdrScan_false_nl tail
      rw [hb2]
      have hy : (hdrScan b2 tail).head? = tail.head? := hdrScan_head b2 tail
      match hm : hdrScan b2 tail with
      | [] => rfl
      | y :: Y =>
        rw [hm] at hy
        have hyne : y ≠ '\n' := by
          intro hcc
          subst hcc
          obtain ⟨R, hR⟩ := head_of_head? hy.symm
          rw [hR] at h
          exact absurd (by rw [anyPos_cons] at h; exact h)
            (by simp [has3At])
        exact has3At_false_3 '\n' '\n' Y hyne
    rw [hfirst]
    rfl
  | case8 c tail hc ih =>
    rw [hdrScan.eq_6, if_neg hc]
    rw [anyPos_cons, anyPos_cons, anyPos_cons]
    have htail : anyPos has3At tail = false :=
      (anyPos_false_cons (anyPos_false_cons h).2).2
    rw [has3At_false_3 '\n' '\n' _ hc, has3At_false_2 '\n' _ hc,
      has3At_cons_false _ hc, ih htail]
    rfl
  | case9 c rest hg1 hg2 ih =>
    have hc : c ≠ '\n' := by
      intro hcc
      match rest with
      | [] => exact hg1 hcc rfl
      | r :: rr => exact hg2 r rr hcc rfl
    rw [hdrScan.eq_7 c rest hg1 hg2, anyPos_cons,
      has3At_cons_false _ hc, ih (anyPos_false_cons h).2]
    rfl

lemma hasTWAt_cons (a : Char) (X : Str) :
    hasTWAt (a :: X) = (isSpTab a && X.head? = some '\n') := rfl

lemma hdrScan_noTW (b : Bool) (v : Str) (h : anyPos hasTWAt v = false) :
    anyPos hasTWAt (hdrScan b v) = false := by
  induction b, v using hdrScan.induct with
  | case1 => rfl
  | case2 rest hh ih =>
    rw [hdrScan.eq_2, if_pos hh, anyPos_cons, hasTWAt_cons,
      ih (anyPos_false_cons h).2]
    simp [isSpTab]
  | case3 rest hh ih =>
    rw [hdrScan.eq_2, if_neg hh, anyPos_cons, hasTWAt_cons,
      ih (anyPos_false_cons h).2]
    simp [isSpTab]
  | case4 c rest hc ih =>
    rw [hdrScan.eq_3 c rest hc, anyPos_cons, hasTWAt_cons,
      hdrScan_head false rest, ih (anyPos_false_cons h).2]
    have hfst : hasTWAt (c :: rest) = false := (anyPos_false_cons h).1
    rw [hasTWAt_cons] at hfst
    rw [hfst]
    rfl
  | case5 => rfl
  | case6 => rfl
  | case7 tail ih =>
    rw [hdrScan.eq_6, if_pos rfl, anyPos_cons, hasTWAt_cons,
      ih (anyPos_false_cons h).2]
    simp [isSpTab]
  | case8 c tail hc ih =>
    rw [hdrScan.eq_6, if_neg hc]
    have htail : anyPos hasTWAt tail = false :=
      (anyPos_false_cons (anyPos_false_cons h).2).2
    have hfst : hasTWAt (c :: tail) = false :=
      (anyPos_false_cons (anyPos_false_cons h).2).1
    rw [anyPos_cons, anyPos_cons, anyPos_cons, hasTWAt_cons, hasTWAt_cons,
      hasTWAt_cons, hdrScan_head false tail, ih htail]
    rw [hasTWAt_cons] at hfst
    rw [hfst]
    simp [isSpTab]
  | case9 c rest hg1 hg2 ih =>
    rw [hdrScan.eq_7 c rest hg1 hg2, anyPos_cons, hasTWAt_cons,
      hdrScan_head true rest, ih (anyPos_false_cons h).2]
    have hfst : hasTWAt (c :: rest) = false := (anyPos_false_cons h).1
    rw [hasTWAt_cons] at hfst
    rw [hfst]
    rfl

lemma mem_hdrScan (b : Bool) (v : Str) (a : Char) (h : a ∈ hdrScan b v) :
    a ∈ v ∨ a = '\n' := by
  induction b, v using hdrScan.induct with
  | case1 => simp [hdrScan] at h
  | case2 rest hh ih =>
    rw [hdrScan.eq_2, if_pos hh] at h
    rcases List.mem_cons.1 h with rfl | h2
    · exact Or.inr rfl
    · rcases ih h2 with h3 | h3
      · exact Or.inl (List.mem_cons_of_mem _ h3)
      · exact Or.inr h3
  | case3 rest hh ih =>
    rw [hdrScan.eq_2, if_neg hh] at h
    rcases List.mem_cons.1 h with rfl | h2
    · exact Or.inr rfl
    · rcases ih h2 with h3 | h3
      · exact Or.inl (List.mem_cons_of_mem _ h3)
      · exact Or.inr h3
  | case4 c rest hc ih =>
    rw [hdrScan.eq_3 c rest hc] at h
    rcases List.mem_cons.1 h with rfl | h2
    · exact Or.inl (List.mem_cons_self _ _)
    · rcases ih h2 with h3 | h3
      · exact Or.inl (List.mem_cons_of_mem _ h3)
      · exact Or.inr h3
  | case5 => simp [hdrScan] at h
  | case6 =>
    rw [show hdrScan true ['\n'] = ['\n'] from rfl] at h
    rcases List.mem_cons.1 h with rfl | h2
    · exact Or.inr rfl
    · simp at h2
  | case7 tail ih =>
    rw [hdrScan.eq_6, if_pos rfl] at h
    rcases List.mem_cons.1 h with rfl | h2
    · exact Or.inr rfl
    · rcases ih h2 with h3 | h3
      · exact Or.inl (List.mem_cons_of_mem _ h3)
      · exact Or.inr h3
  | case8 c tail hc ih =>
    rw [hdrScan.eq_6, if_neg hc] at h
    rcases List.mem_cons.1 h with rfl | h2
    · exact Or.inr rfl
    rcases List.mem_cons.1 h2 with rfl | h3
    · exact Or.inr rfl
    rcases List.mem_cons.1 h3 with rfl | h4
    · exact Or.inl (List.mem_cons_of_mem _ (List.mem_cons_self _ _))
    · rcases ih h4 with h5 | h5
      · exact Or.inl (List.mem_cons_of_mem _ (List.mem_cons_of_mem _ h5))
      · exact Or.inr h5
  | case9 c rest hg1 hg2 ih =>
    rw [hdrScan.eq_7 c rest hg1 hg2] at h
    rcases List.mem_cons.1 h with rfl | h2
    · exact Or.inl (List.mem_cons_self _ _)
    · rcases ih h2 with h3 | h3
      · exact Or.inl (List.mem_cons_of_mem _ h3)
      · exact Or.inr h3

lemma rstripWs_pref (w : Str) : rstripWs w <+: w := by
  have h1 : w.reverse.dropWhile pyWs <:+ w.reverse := List.dropWhile_suffix pyWs
  have h2 : (w.reverse.dropWhile pyWs).reverse <+: w.reverse.reverse :=
    List.reverse_prefix.2 h1
  rwa [List.reverse_reverse] at h2

lemma mem_pyStrip {a : Char} {v : Str} (h : a ∈ pyStrip v) : a ∈ v := by
  have h1 : a ∈ lstrip v := (rstripWs_pref (lstrip v)).subset h
  exact (List.dropWhile_suffix pyWs).subset h1

lemma anyPos_false_pyStrip {p : Str → Bool}
    (hp : ∀ t e, p t = true → p (t ++ e) = true) {v : Str}
    (h : anyPos p v = false) : anyPos p (pyStrip v) = false := by
  have h1 : anyPos p (lstrip v) = false :=
    anyPos_false_of_suffix (List.dropWhile_suffix pyWs) h
  exact anyPos_false_of_prefix hp (rstripWs_pref (lstrip v)) h1

lemma rstripWs_idem (w : Str) : rstripWs (rstripWs w) = rstripWs w := by
  unfold rstripWs
  rw [List.reverse_reverse, List.dropWhile_idempotent]

lemma lstrip_rstrip_lstrip (v : Str) :
    lstrip (rstripWs (lstrip v)) = rstripWs (lstrip v) := by
  match hm : rstripWs (lstrip v) with
  | [] => rfl
  | c :: w =>
    have hpre : rstripWs (lstrip v) <+: lstrip v := rstripWs_pref (lstrip v)
    rw [hm] at hpre
    obtain ⟨t, ht⟩ := hpre
    have hc : pyWs c = false := by
      apply @dropWhile_head_false pyWs v c (w ++ t)
      rw [show List.dropWhile pyWs v = lstrip v from rfl, ← ht,
        List.cons_append]
    rw [lstrip, List.dropWhile_cons, if_neg (by simp [hc])]

lemma pyStrip_idem (v : Str) : pyStrip (pyStrip v) = pyStrip v := by
  show rstripWs (lstrip (rstripWs (lstrip v))) = rstripWs (lstrip v)
  rw [lstrip_rstrip_lstrip v, rstripWs_idem]

lemma clean_markdown_eval (x : Str) (hx : ¬x.isEmpty = true)
    (hCR : '\r' ∉ x) (hTW : anyPos hasTWAt x = false)
    (h3 : anyPos has3At x = false) :
    clean_markdown x = pyStrip (hdrScan false x) := by
  rw [clean_markdown, if_neg hx, crlfSub_id x hCR, collapseNl_id x h3,
    trailWsSub_id x hTW]
  rfl

lemma clean_markdown_idem_aux (x : Str) (hCR : '\r' ∉ x)
    (hTW : anyPos hasTWAt x = false) (h3 : anyPos has3At x = false)
    (hAdj : anyPos hasAdjAt x = false) :
    clean_markdown (clean_markdown x) = clean_markdown x := by
  by_cases hx : x.isEmpty = true
  · have : x = [] := List.isEmpty_iff.1 hx
    subst this
    rfl
  · rw [clean_markdown_eval x hx hCR hTW h3]
    set y := pyStrip (hdrScan false x) with hy
    by_cases hye : y.isEmpty = true
    · have hy0 : y = [] := List.isEmpty_iff.1 hye
      rw [hy0]
      rfl
    · have hCRy : '\r' ∉ y := by
        intro hm
        rcases mem_hdrScan false x '\r' (mem_pyStrip hm) with h | h
        · exact hCR h
        · exact absurd h (by decide)
      have hTWy : anyPos hasTWAt y = false :=
        anyPos_false_pyStrip hasTWAt_extend (hdrScan_noTW false x hTW)
      have h3y : anyPos has3At y = false :=
        anyPos_false_pyStrip has3At_extend (hdrScan_no3 false x h3)
      have hShy : anyPos hasShapeAt y = false :=
        anyPos_false_pyStrip hasShapeAt_extend
          (hdrScan_no_shape false x hAdj (fun hc => by simp at hc))
      rw [clean_markdown_eval y hye hCRy hTWy h3y]
      rw [show hdrScan false y = y from
        hdrScan_id false y hShy (fun hc => by simp at hc)]
      rw [hy, pyStrip_idem]

/-- C1 counterexample: `clean_markdown` (src/websum.py) is not idempotent.
Three concrete inputs where a second application changes the result again:
two adjacent header lines (the regex consumes the second header's hash as
its lookahead character, so the blank line between the headers only appears
on the second pass); a lone carriage return before a space-newline (removing
the trailing space creates a CRLF pair that only the second pass
normalizes); and spaces inside a blank-line run (removing them creates a
triple-newline run that only the second pass collapses). -/
theorem clean_markdown_not_idempotent :
    clean_markdown (clean_markdown (str "a\n# A\n# B\nx")) ≠
      clean_markdown (str "a\n# A\n# B\nx") ∧
    clean_markdown (clean_markdown (str "a\r \nb")) ≠
      clean_markdown (str "a\r \nb") ∧
    clean_markdown (clean_markdown (str "a\n \n \nb")) ≠
      clean_markdown (str "a\n \n \nb") := by
  refine ⟨?_, ?_, ?_⟩ <;> decide

/-- C1 amended: `clean_markdown` maps `None` and the empty string to `""`,
and it is idempotent on inputs that contain no carriage return, no space or
tab immediately before a newline, no run of three or more newlines, and no
header line immediately followed by another header line.  In general it is
not idempotent (see the counterexample). -/
theorem clean_markdown_idempotent_on_tame_inputs :
    clean_markdownO none = [] ∧
    clean_markdown [] = [] ∧
    (∀ x : Str, '\r' ∉ x → anyPos hasTWAt x = false →
      anyPos has3At x = false → anyPos hasAdjAt x = false →
      clean_markdown (clean_markdown x) = clean_markdown x) :=
  ⟨rfl, rfl, clean_markdown_idem_aux⟩

/-- C1 witness: the amended idempotence applied to a concrete input with a
header followed by content (all side conditions hold by computation). -/
theorem clean_markdown_idempotent_witness :
    clean_markdown (clean_markdown (str "intro\n# Title\nbody text\n\nmore")) =
      clean_markdown (str "intro\n# Title\nbody text\n\nmore") :=
  clean_markdown_idempotent_on_tame_inputs.2.2 _
    (by decide) (by decide) (by decide) (by decide)

/-! ## C5: clean_text idempotence -/

lemma linkScan_norm_cons_of_ne {c : Char} (cs : Str) (hc : c ≠ '[') :
    linkScan .norm (c :: cs) = c :: linkScan .norm cs := by
  rw [linkScan.eq_def]
  split
  · next heq => simp at heq
  · next cs2 heq =>
    rw [List.cons_eq_cons] at heq
    exact absurd heq.1 hc
  · next c2 cs2 hnp heq =>
    rw [List.cons_eq_cons] at heq
    obtain ⟨rfl, rfl⟩ := heq
    rfl
  all_goals simp_all

lemma linkSub_id {v : Str} (h : '[' ∉ v) : linkSub v = v := by
  rw [linkSub]
  induction v with
  | nil => rfl
  | cons c cs ih =>
    have hc : c ≠ '[' := fun he => h (he ▸ List.mem_cons_self _ _)
    have hcs : '[' ∉ cs := fun hm => h (List.mem_cons_of_mem c hm)
    rw [linkScan_norm_cons_of_ne cs hc, ih hcs]

lemma mem_removeDecor {a : Char} {v : Str} (h : a ∈ removeDecor v) : a ∈ v := by
  induction v with
  | nil => simp [removeDecor] at h
  | cons c cs ih =>
    simp only [removeDecor] at h
    by_cases hd : decoChar c
    · rw [if_pos hd] at h
      exact List.mem_cons_of_mem c (ih h)
    · rw [if_neg hd] at h
      rcases List.mem_cons.1 h with h1 | h2
      · exact h1 ▸ List.mem_cons_self _ _
      · exact List.mem_cons_of_mem c (ih h2)

lemma removeDecor_free {v : Str} : ∀ a ∈ removeDecor v, decoChar a = false := by
  induction v with
  | nil => intro a ha; simp [removeDecor] at ha
  | cons c cs ih =>
    intro a ha
    simp only [removeDecor] at ha
    by_cases hd : decoChar c
    · rw [if_pos hd] at ha
      exact ih a ha
    · rw [if_neg hd] at ha
      rcases List.mem_cons.1 ha with h1 | h2
      · subst h1
        simpa using hd
      · exact ih a h2

lemma removeDecor_id {v : Str} (h : ∀ a ∈ v, decoChar a = false) : removeDecor v = v := by
  induction v with
  | nil => rfl
  | cons c cs ih =>
    have hc : decoChar c = false := h c (List.mem_cons_self _ _)
    have hcs : ∀ a ∈ cs, decoChar a = false := fun a ha => h a (List.mem_cons_of_mem c ha)
    simp [removeDecor, hc, ih hcs]

lemma collapseWsAux_ws_true {c : Char} (cs : Str) (hw : pyWs c = true) :
    collapseWsAux true (c :: cs) = collapseWsAux true cs := by
  simp [collapseWsAux, hw]

lemma collapseWsAux_ws_false {c : Char} (cs : Str) (hw : pyWs c = true) :
    collapseWsAux false (c :: cs) = ' ' :: collapseWsAux true cs := by
  simp [collapseWsAux, hw]

lemma collapseWsAux_nws {c : Char} (cs : Str) (b : Bool) (hw : pyWs c = false) :
    collapseWsAux b (c :: cs) = c :: collapseWsAux false cs := by
  simp [collapseWsAux, hw]

lemma collapseWsAux_mem {a : Char} : ∀ (v : Str) (b : Bool),
    a ∈ collapseWsAux b v → a = ' ' ∨ a ∈ v := by
  intro v
  induction v with
  | nil => intro b h; simp [collapseWsAux] at h
  | cons c cs ih =>
    intro b h
    by_cases hw : pyWs c
    · cases b with
      | true =>
        rw [collapseWsAux_ws_true cs hw] at h
        rcases ih true h with h1 | h2
        · exact Or.inl h1
        · exact Or.inr (List.mem_cons_of_mem c h2)
      | false =>
        rw [collapseWsAux_ws_false cs hw] at h
        rcases List.mem_cons.1 h with h1 | h2
        · exact Or.inl h1
        · rcases ih true h2 with h3 | h4
          · exact Or.inl h3
          · exact Or.inr (List.mem_cons_of_mem c h4)
    · have hw2 : pyWs c = false := by simpa using hw
      rw [collapseWsAux_nws cs b hw2] at h
      rcases List.mem_cons.1 h with h1 | h2
      · exact Or.inr (h1 ▸ List.mem_cons_self _ _)
      · rcases ih false h2 with h3 | h4
        · exact Or.inl h3
        · exact Or.inr (List.mem_cons_of_mem c h4)

lemma collapseWsAux_ws_space {a : Char} : ∀ (v : Str) (b : Bool),
    a ∈ collapseWsAux b v → pyWs a = true → a = ' ' := by
  intro v
  induction v with
  | nil => intro b h ha; simp [collapseWsAux] at h
  | cons c cs ih =>
    intro b h ha
    by_cases hw : pyWs c
    · cases b with
      | true =>
        rw [collapseWsAux_ws_true cs hw] at h
        exact ih true h ha
      | false =>
        rw [collapseWsAux_ws_false cs hw] at h
        rcases List.mem_cons.1 h with h1 | h2
        · exact h1
        · exact ih true h2 ha
    · have hw2 : pyWs c = false := by simpa using hw
      rw [collapseWsAux_nws cs b hw2] at h
      rcases List.mem_cons.1 h with h1 | h2
      · subst h1
        simp [ha] at hw2
      · exact ih false h2 ha

lemma collapseWsAux_true_head : ∀ (v : Str) (c : Char),
    (collapseWsAux true v).head? = some c → pyWs c = false := by
  intro v
  induction v with
  | nil => intro c h; simp [collapseWsAux] at h
  | cons d ds ih =>
    intro c h
    by_cases hw : pyWs d
    · rw [collapseWsAux_ws_true ds hw] at h
      exact ih c h
    · have hw2 : pyWs d = false := by simpa using hw
      rw [collapseWsAux_nws ds true hw2] at h
      simp at h
      rw [← h]
      exact hw2

lemma collapseWsAux_noPair : ∀ (v : Str) (b : Bool),
    anyPos hasWsPairAt (collapseWsAux b v) = false := by
  intro v
  induction v with
  | nil => intro b; rfl
  | cons c cs ih =>
    intro b
    by_cases hw : pyWs c
    · cases b with
      | true =>
        rw [collapseWsAux_ws_true cs hw]
        exact ih true
      | false =>
        rw [collapseWsAux_ws_false cs hw]
        rw [anyPos, ih true]
        have hhd : hasWsPairAt (' ' :: collapseWsAux true cs) = false := by
          cases hm : collapseWsAux true cs with
          | nil => rfl
          | cons d ds =>
            have hd : pyWs d = false := collapseWsAux_true_head cs d (by rw [hm]; rfl)
            simp [hasWsPairAt, hd]
        rw [hhd]
        rfl
    · have hw2 : pyWs c = false := by simpa using hw
      rw [collapseWsAux_nws cs b hw2]
      rw [anyPos, ih false]
      have hhd : hasWsPairAt (c :: collapseWsAux false cs) = false := by
        cases collapseWsAux false cs with
        | nil => rfl
        | cons d ds => simp [hasWsPairAt, hw2]
      rw [hhd]
      rfl

lemma collapseWsAux_id : ∀ v : Str,
    (∀ a ∈ v, pyWs a = true → a = ' ') → anyPos hasWsPairAt v = false →
    collapseWsAux false v = v ∧
      ((∀ c, v.head? = some c → pyWs c = false) → collapseWsAux true v = v) := by
  intro v
  induction v with
  | nil => intro _ _; exact ⟨rfl, fun _ => rfl⟩
  | cons c cs ih =>
    intro hsp hnp
    have hsp2 : ∀ a ∈ cs, pyWs a = true → a = ' ' :=
      fun a ha => hsp a (List.mem_cons_of_mem c ha)
    have hnp2 : anyPos hasWsPairAt cs = false := (anyPos_false_cons hnp).2
    have hpair : hasWsPairAt (c :: cs) = false := (anyPos_false_cons hnp).1
    obtain ⟨ihA, ihB⟩ := ih hsp2 hnp2
    by_cases hw : pyWs c
    · have hc : c = ' ' := hsp c (List.mem_cons_self _ _) hw
      constructor
      · rw [collapseWsAux_ws_false cs hw]
        have hcs : collapseWsAux true cs = cs := by
          apply ihB
          intro d hd
          cases hm : cs with
          | nil => rw [hm] at hd; simp at hd
          | cons e es =>
            rw [hm] at hd
            simp at hd
            rw [hm] at hpair
            simp [hasWsPairAt, hw] at hpair
            exact hd ▸ hpair
        rw [hcs, hc]
      · intro hhd
        exact absurd (hhd c rfl) (by simp [hw])
    · have hw2 : pyWs c = false := by simpa using hw
      constructor
      · rw [collapseWsAux_nws cs false hw2, ihA]
      · intro _
        rw [collapseWsAux_nws cs true hw2, ihA]

lemma repl3_id {a b c : Char} {rep : Str} : ∀ {v : Str}, a ∉ v → repl3 a b c rep v = v
  | [], _ => rfl
  | [x], _ => rfl
  | [x, y], _ => rfl
  | x :: y :: z :: rest, h => by
    have hx : x ≠ a := fun he => h (he ▸ List.mem_cons_self _ _)
    rw [repl3, if_neg (fun hc => hx hc.1)]
    congr 1
    exact repl3_id (fun hm => h (List.mem_cons_of_mem x hm))

lemma repl2_id {a b : Char} {rep : Str} : ∀ {v : Str}, a ∉ v → repl2 a b rep v = v
  | [], _ => rfl
  | [x], _ => rfl
  | x :: y :: rest, h => by
    have hx : x ≠ a := fun he => h (he ▸ List.mem_cons_self _ _)
    rw [repl2, if_neg (fun hc => hx hc.1)]
    congr 1
    exact repl2_id (fun hm => h (List.mem_cons_of_mem x hm))

lemma fixEncoding_id {v : Str} (h : 'â' ∉ v) : fixEncoding v = v := by
  rw [fixEncoding, repl3_id h, repl3_id h, repl3_id h, repl2_id h, repl3_id h]

lemma clean_text_mem {a : Char} {v : Str}
    (h : a ∈ pyStrip (collapseWs (removeDecor v))) : a = ' ' ∨ a ∈ removeDecor v :=
  collapseWsAux_mem (removeDecor v) false (mem_pyStrip h)

lemma hasWsPairAt_extend (t e : Str) (h : hasWsPairAt t = true) :
    hasWsPairAt (t ++ e) = true := by
  match t with
  | a :: b :: rest => simpa [hasWsPairAt] using h
  | [] | [a] => simp [hasWsPairAt] at h

lemma clean_text_idem_aux : ∀ v : Str, '[' ∉ v → 'â' ∉ v →
    clean_text (clean_text v) = clean_text v := by
  intro v hbr hmo
  have hlink : linkSub v = v := linkSub_id hbr
  set s := pyStrip (collapseWs (removeDecor v)) with hs
  have hsmem : ∀ a ∈ s, a = ' ' ∨ a ∈ removeDecor v := fun a ha => clean_text_mem ha
  have hsa : 'â' ∉ s := by
    intro hm
    rcases hsmem 'â' hm with h1 | h2
    · exact absurd h1 (by decide)
    · exact hmo (mem_removeDecor h2)
  have hpass1 : clean_text v = s := by
    rw [clean_text, hlink, ← hs, fixEncoding_id hsa]
  rw [hpass1]
  have hsbr : '[' ∉ s := by
    intro hm
    rcases hsmem '[' hm with h1 | h2
    · exact absurd h1 (by decide)
    · exact hbr (mem_removeDecor h2)
  have hdec2 : removeDecor s = s := by
    apply removeDecor_id
    intro a ha
    rcases hsmem a ha with h1 | h2
    · subst h1; decide
    · exact removeDecor_free a h2
  have hspace : ∀ a ∈ s, pyWs a = true → a = ' ' := by
    intro a ha hws
    exact collapseWsAux_ws_space (removeDecor v) false (mem_pyStrip (hs ▸ ha)) hws
  have hnopair : anyPos hasWsPairAt s = false := by
    rw [hs]
    exact anyPos_false_pyStrip hasWsPairAt_extend (collapseWsAux_noPair (removeDecor v) false)
  have hcol2 : collapseWs s = s := (collapseWsAux_id s hspace hnopair).1
  have hstrip2 : pyStrip s = s := by
    rw [hs]
    exact pyStrip_idem _
  rw [clean_text, linkSub_id hsbr, hdec2, hcol2, hstrip2, fixEncoding_id hsa]

/-- C5 counterexample: `clean_text` is not idempotent.  The mojibake repair
for the corrupted em-dash sequence produces a `-`, which belongs to the
decorative-glyph class, so a second pass deletes it; and removing the
decorative `-` in `[a]-(b)` creates the link pattern `[a](b)`, which a
second pass collapses to its label. -/
theorem clean_text_not_idempotent :
    clean_text (clean_text (str "xâ€\"y")) ≠ clean_text (str "xâ€\"y") ∧
    clean_text (clean_text (str "[a]-(b)")) ≠ clean_text (str "[a]-(b)") := by
  constructor <;> decide

/-- C5: `clean_text` is idempotent on every input that contains no opening
bracket (so no markdown-link pattern can arise) and no `â` (so no mojibake
repair fires); on such inputs one pass already yields a stripped,
decorative-free, whitespace-normal string that every stage maps to itself. -/
theorem clean_text_idempotent_on_plain_inputs :
    ∀ v : Str, '[' ∉ v → 'â' ∉ v → clean_text (clean_text v) = clean_text v :=
  clean_text_idem_aux

theorem clean_text_idempotent_witness :
    clean_text (clean_text (str "many  spaced   words")) =
      clean_text (str "many  spaced   words") :=
  clean_text_idempotent_on_plain_inputs (str "many  spaced   words") (by decide) (by decide)

/-! ## C10: references to undefined helper functions -/

/-- C10: once the guards pass, `create_condensed_summary` always reaches its
reference to the undefined `extract_technical_terms` and raises `NameError`
instead of returning a summary dict; `save_unified_knowledge` raises
`NameError` on its undefined `get_safe_filename` for every content object;
and `save_knowledge_base_entry` raises `NameError` on
`extract_technical_terms` for every content object that carries a markdown
string (and `TypeError` even earlier when `markdown` is `None`). -/
theorem undefined_helpers_raise_nameerror :
    (∀ content : Str, content ≠ [] → extract_readable_text content ≠ [] →
        survivingParas (extract_readable_text content) ≠ [] →
        create_condensed_summary content =
          Except.error (PyErr.nameError (str "extract_technical_terms"))) ∧
    (∀ c : KBContent, save_unified_knowledge c =
        Except.error (PyErr.nameError (str "get_safe_filename"))) ∧
    (∀ c : KBContent, c.markdown.isSome = true →
        save_knowledge_base_entry c =
          Except.error (PyErr.nameError (str "extract_technical_terms"))) := by
  refine ⟨?_, ?_, ?_⟩
  · intro content h1 h2 h3
    rw [create_condensed_summary]
    rw [if_neg (by simpa [List.isEmpty_iff] using h1)]
    rw [if_neg (by simpa [List.isEmpty_iff] using h2)]
    rw [if_neg (by simpa [List.isEmpty_iff] using h3)]
  · intro c
    rfl
  · intro c hm
    cases hc : c.markdown with
    | none => rw [hc] at hm; simp at hm
    | some md => simp [save_knowledge_base_entry, hc]

theorem undefined_helpers_witness :
    create_condensed_summary
        (str "The quality of embedded proofs depends on careful translation work today.") =
      Except.error (PyErr.nameError (str "extract_technical_terms")) ∧
    save_unified_knowledge sampleKB =
      Except.error (PyErr.nameError (str "get_safe_filename")) ∧
    save_knowledge_base_entry sampleKB =
      Except.error (PyErr.nameError (str "extract_technical_terms")) :=
  ⟨undefined_helpers_raise_nameerror.1 _ (by decide) (by decide) (by decide),
   undefined_helpers_raise_nameerror.2.1 sampleKB,
   undefined_helpers_raise_nameerror.2.2 sampleKB (by decide)⟩

/-! ## C6: extract_page_links -/

lemma insertSorted_perm (x : Str) (l : List Str) : List.Perm (insertSorted x l) (x :: l) := by
  induction l with
  | nil => exact List.Perm.refl _
  | cons y ys ih =>
    rw [insertSorted]
    by_cases h : strLt x y
    · rw [if_pos h]
    · rw [if_neg h]
      exact (ih.cons y).trans (List.Perm.swap x y ys)

lemma sortStrs_perm (l : List Str) : List.Perm (sortStrs l) l := by
  induction l with
  | nil => exact List.Perm.refl _
  | cons x xs ih =>
    show List.Perm (insertSorted x (sortStrs xs)) (x :: xs)
    exact (insertSorted_perm x (sortStrs xs)).trans (ih.cons x)

lemma strLt_asymm : ∀ {x y : Str}, strLt x y = true → strLt y x = false
  | [], [], h => by simp [strLt] at h
  | [], b :: bs, _ => rfl
  | a :: as, [], h => by simp [strLt] at h
  | a :: as, b :: bs, h => by
    rw [strLt] at h ⊢
    by_cases hab : a < b
    · rw [if_neg (lt_asymm hab), if_pos hab]
    · rw [if_neg hab] at h
      by_cases hba : b < a
      · rw [if_pos hba] at h
        simp at h
      · rw [if_neg hba] at h
        rw [if_neg hba, if_neg hab]
        exact strLt_asymm h

lemma sortedB_insertSorted (x : Str) : ∀ l : List Str,
    sortedB l = true → sortedB (insertSorted x l) = true := by
  intro l
  induction l with
  | nil => intro _; rfl
  | cons y ys ih =>
    intro h
    rw [insertSorted]
    by_cases hxy : strLt x y
    · rw [if_pos hxy]
      rw [sortedB, strLt_asymm hxy, h]
      rfl
    · rw [if_neg hxy]
      have hxy2 : strLt x y = false := by simpa using hxy
      cases ys with
      | nil =>
        simp [insertSorted, sortedB, hxy2]
      | cons z zs =>
        have h2 : (!strLt z y && sortedB (z :: zs)) = true := h
        rw [Bool.and_eq_true] at h2
        obtain ⟨h3, hzzs⟩ := h2
        have hzy : strLt z y = false := by simpa using h3
        rw [insertSorted]
        by_cases hxz : strLt x z
        · rw [if_pos hxz]
          rw [sortedB, hxy2]
          have h4 : sortedB (x :: z :: zs) = true := by
            rw [sortedB, strLt_asymm hxz, hzzs]
            rfl
          rw [h4]
          rfl
        · rw [if_neg hxz]
          have h5 := ih hzzs
          rw [insertSorted, if_neg hxz] at h5
          rw [sortedB, hzy, h5]
          rfl

lemma sortedB_sortStrs (l : List Str) : sortedB (sortStrs l) = true := by
  induction l with
  | nil => rfl
  | cons x xs ih => exact sortedB_insertSorted x (sortStrs xs) ih

lemma linkStep_inv {bd base : Str} {acc : List Str} (P : Str → Prop)
    (hP : ∀ h : Str, acceptLink bd h = true → P (normalizeLink h))
    (hnd : acc.Nodup) (hall : ∀ u ∈ acc, P u) (href : Str) :
    (linkStep bd base acc href).Nodup ∧ ∀ u ∈ linkStep bd base acc href, P u := by
  rw [linkStep]
  by_cases ha : acceptLink bd (resolveHref base href)
  · rw [if_pos ha]
    by_cases hc : acc.contains (normalizeLink (resolveHref base href))
    · simp only [hc, if_true]
      exact ⟨hnd, hall⟩
    · have hc2 : acc.contains (normalizeLink (resolveHref base href)) = false := by
        simpa using hc
      simp only [hc2, Bool.false_eq_true, if_false]
      constructor
      · refine List.Nodup.append hnd (List.nodup_singleton _) ?_
        intro a hmem hmem2
        rw [List.mem_singleton] at hmem2
        rw [hmem2] at hmem
        exact hc (by simpa [List.contains] using List.elem_eq_true_of_mem hmem)
      · intro u hu
        rcases List.mem_append.1 hu with h1 | h2
        · exact hall u h1
        · rw [List.mem_singleton] at h2
          subst h2
          exact hP _ ha
  · rw [if_neg ha]
    exact ⟨hnd, hall⟩

lemma collect_inv (bd base : Str) (P : Str → Prop)
    (hP : ∀ h : Str, acceptLink bd h = true → P (normalizeLink h)) :
    ∀ (hrefs : List Str) (acc : List Str), acc.Nodup → (∀ u ∈ acc, P u) →
      (hrefs.foldl (linkStep bd base) acc).Nodup ∧
        ∀ u ∈ hrefs.foldl (linkStep bd base) acc, P u := by
  intro hrefs
  induction hrefs with
  | nil => intro acc h1 h2; exact ⟨h1, h2⟩
  | cons href hs ih =>
    intro acc h1 h2
    rw [List.foldl_cons]
    obtain ⟨h3, h4⟩ := linkStep_inv P hP h1 h2 href
    exact ih _ h3 h4

lemma normalizeLink_no_hash {h : Str} {a : Char} (hm : a ∈ normalizeLink h) : a ≠ '#' := by
  rw [normalizeLink, rstripSlash] at hm
  have h2 := List.mem_reverse.1 hm
  have h3 := (List.dropWhile_sublist _).subset h2
  have h4 := List.mem_reverse.1 h3
  have h5 := List.mem_takeWhile_imp h4
  simpa using h5

lemma normalizeLink_last {h : Str} : (normalizeLink h).getLast? ≠ some '/' := by
  rw [normalizeLink, rstripSlash, List.getLast?_reverse]
  intro hc
  cases hm : (h.takeWhile (fun c => c ≠ '#')).reverse.dropWhile (fun c => c = '/') with
  | nil => rw [hm] at hc; simp at hc
  | cons d ds =>
    rw [hm] at hc
    simp at hc
    have hd := @dropWhile_head_false (fun c => c = '/')
      ((h.takeWhile (fun c => c ≠ '#')).reverse) d ds hm
    rw [hc] at hd
    simp at hd

/-- C6 counterexample: a link on host `docs.other.com` is kept for base
`https://example.com` (the relaxed `"docs" in netloc` branch is always
active, not only in an optional mode), and `.rstrip('/')` removes every
trailing slash, not a single one. -/
theorem extract_page_links_counterexample :
    extract_page_links
        [str "https://docs.other.com/page#frag", str "https://example.com/a//"]
        (str "https://example.com") =
      [str "https://docs.other.com/page", str "https://example.com/a"] ∧
    netlocOf (str "https://docs.other.com/page") ≠ netlocOf (str "https://example.com") ∧
    '#' ∉ str "https://example.com/a//" ∧
    normalizeLink (str "https://example.com/a//") ≠ str "https://example.com/a/" := by
  refine ⟨?_, ?_, ?_, ?_⟩ <;> decide

/-- C6: `extract_page_links` returns a sorted, duplicate-free list; every
entry is the normalization — fragment part removed, every trailing slash
removed — of a resolved link that the filter accepted, i.e. one whose host
equals the base URL's host or contains the substring `docs`. -/
theorem extract_page_links_sorted_dedup_filtered (hrefs : List Str) (base_url : Str) :
    sortedB (extract_page_links hrefs base_url) = true ∧
    (extract_page_links hrefs base_url).Nodup ∧
    ∀ u ∈ extract_page_links hrefs base_url,
      '#' ∉ u ∧ u.getLast? ≠ some '/' ∧
      ∃ h, acceptLink (netlocOf base_url) h = true ∧ u = normalizeLink h := by
  obtain ⟨hnd, hall⟩ := collect_inv (netlocOf base_url) base_url
    (fun u => ∃ h, acceptLink (netlocOf base_url) h = true ∧ u = normalizeLink h)
    (fun h ha => ⟨h, ha, rfl⟩) hrefs [] List.nodup_nil (by intro u hu; simp at hu)
  have hperm : List.Perm (sortStrs (collectLinks base_url hrefs)) (collectLinks base_url hrefs) :=
    sortStrs_perm _
  refine ⟨sortedB_sortStrs _, ?_, ?_⟩
  · rw [extract_page_links]
    exact hperm.nodup_iff.2 hnd
  · intro u hu
    rw [extract_page_links] at hu
    have hu2 : u ∈ collectLinks base_url hrefs := hperm.subset hu
    obtain ⟨h, ha, he⟩ := hall u hu2
    refine ⟨?_, ?_, h, ha, he⟩
    · intro hmem
      exact normalizeLink_no_hash (he ▸ hmem) rfl
    · rw [he]
      exact normalizeLink_last

theorem extract_page_links_witness :
    '#' ∉ str "https://example.com/a" ∧
    (str "https://example.com/a").getLast? ≠ some '/' ∧
    ∃ h, acceptLink (netlocOf (str "https://example.com")) h = true ∧
      str "https://example.com/a" = normalizeLink h :=
  (extract_page_links_sorted_dedup_filtered
      [str "https://example.com/a//"] (str "https://example.com")).2.2
    (str "https://example.com/a") (by decide)

/-! ## C2 and C3: process_markdown_content round-trip and tagging -/

lemma tokensAux_allws {w : Str} (hw : w.all pyWs = true) :
    ∀ cur : Str, tokensAux cur w = tokensAux cur [] := by
  induction w with
  | nil => intro cur; rfl
  | cons c cs ih =>
    intro cur
    rw [List.all_cons, Bool.and_eq_true] at hw
    by_cases hcur : cur.isEmpty
    · simp only [tokensAux, hw.1, if_true, hcur, ih hw.2 []]
      simp [tokensAux, hcur]
    · have hcur2 : cur.isEmpty = false := by simpa using hcur
      simp only [tokensAux, hw.1, if_true, hcur2, Bool.false_eq_true, if_false, ih hw.2 []]
      simp [tokensAux, hcur2]

lemma tokensAux_append_ws {c : Char} (hc : pyWs c = true) :
    ∀ (a : Str) (cur : Str) (b : Str),
      tokensAux cur (a ++ c :: b) = tokensAux cur a ++ tokensAux [] b := by
  intro a
  induction a with
  | nil =>
    intro cur b
    simp only [List.nil_append]
    by_cases hcur : cur.isEmpty
    · simp [tokensAux, hc, hcur]
    · simp [tokensAux, hc, hcur]
  | cons d ds ih =>
    intro cur b
    simp only [List.cons_append, tokensAux]
    by_cases hd : pyWs d <;> by_cases hcur : cur.isEmpty <;>
      simp [hd, hcur, ih]

lemma tokensAux_ws_prefix {w : Str} (hw : w.all pyWs = true) :
    ∀ r : Str, tokensAux [] (w ++ r) = tokensAux [] r := by
  induction w with
  | nil => intro r; rfl
  | cons c cs ih =>
    intro r
    rw [List.all_cons, Bool.and_eq_true] at hw
    simp only [List.cons_append, tokensAux, hw.1, if_true, List.isEmpty_nil]
    exact ih hw.2 r

lemma tokensAux_append_allws {w : Str} (hw : w.all pyWs = true) :
    ∀ (v : Str) (cur : Str), tokensAux cur (v ++ w) = tokensAux cur v := by
  intro v
  induction v with
  | nil =>
    intro cur
    simpa using tokensAux_allws hw cur
  | cons d ds ih =>
    intro cur
    simp only [List.cons_append, tokensAux]
    by_cases hd : pyWs d <;> by_cases hcur : cur.isEmpty <;>
      simp [hd, hcur, ih]

lemma tokens_lstrip (v : Str) : tokens (lstrip v) = tokens v := by
  rw [tokens, tokens, lstrip]
  induction v with
  | nil => rfl
  | cons c cs ih =>
    by_cases hc : pyWs c
    · rw [List.dropWhile_cons, if_pos (by simp [hc])]
      rw [ih]
      simp [tokensAux, hc]
    · rw [List.dropWhile_cons, if_neg (by simp [hc])]

lemma rstripWs_decomp (v : Str) : ∃ w, v = rstripWs v ++ w ∧ w.all pyWs = true := by
  refine ⟨(v.reverse.takeWhile pyWs).reverse, ?_, ?_⟩
  · have h1 : (v.reverse.dropWhile pyWs).reverse ++ (v.reverse.takeWhile pyWs).reverse
        = (v.reverse.takeWhile pyWs ++ v.reverse.dropWhile pyWs).reverse := by
      rw [List.reverse_append]
    rw [rstripWs, h1, List.takeWhile_append_dropWhile, List.reverse_reverse]
  · rw [List.all_eq_true]
    intro a ha
    exact List.mem_takeWhile_imp (List.mem_reverse.1 ha)

lemma tokens_rstrip (v : Str) : tokens (rstripWs v) = tokens v := by
  obtain ⟨w, hv, hw⟩ := rstripWs_decomp v
  conv_rhs => rw [hv]
  rw [tokens, tokens, tokensAux_append_allws hw]

lemma tokens_pyStrip (v : Str) : tokens (pyStrip v) = tokens v := by
  rw [pyStrip, tokens_rstrip, tokens_lstrip]

lemma splitNl_ne_nil (v : Str) : splitNl v ≠ [] := by
  cases v with
  | nil => simp [splitNl]
  | cons c cs =>
    rw [splitNl]
    by_cases hc : c = '\n'
    · simp [hc]
    · rw [if_neg hc]
      cases splitNl cs with
      | nil => simp
      | cons l ls => simp

lemma tokensAux_splitNl : ∀ (v : Str) (cur : Str) (l : Str) (ls : List Str),
    splitNl v = l :: ls → tokensAux cur v = tokensAux cur l ++ tokensL ls := by
  intro v
  induction v with
  | nil =>
    intro cur l ls h
    simp [splitNl] at h
    obtain ⟨rfl, rfl⟩ := h
    simp [tokensL]
  | cons c cs ih =>
    intro cur l ls h
    by_cases hc : c = '\n'
    · subst hc
      rw [splitNl, if_pos rfl, List.cons_eq_cons] at h
      obtain ⟨h1, h2⟩ := h
      cases hsp : splitNl cs with
      | nil => exact absurd hsp (splitNl_ne_nil cs)
      | cons l2 ls2 =>
        have h3 := ih [] l2 ls2 hsp
        have hnl : pyWs '\n' = true := by decide
        rw [← h1, ← h2, hsp]
        simp only [tokensL]
        by_cases hcur : cur.isEmpty
        · simp only [tokensAux, hnl, if_true, hcur, List.nil_append, h3]
          simp [tokens]
        · have hcur2 : cur.isEmpty = false := by simpa using hcur
          simp only [tokensAux, hnl, if_true, hcur2, Bool.false_eq_true, if_false, h3]
          simp [tokens, tokensL]
    · rw [splitNl, if_neg hc] at h
      cases hsp : splitNl cs with
      | nil => exact absurd hsp (splitNl_ne_nil cs)
      | cons l2 ls2 =>
        rw [hsp, List.cons_eq_cons] at h
        obtain ⟨h1, h2⟩ := h
        rw [← h1, ← h2]
        by_cases hd : pyWs c
        · by_cases hcur : cur.isEmpty
          · simp only [tokensAux, hd, if_true, hcur]
            exact ih [] l2 ls2 hsp
          · have hcur2 : cur.isEmpty = false := by simpa using hcur
            simp only [tokensAux, hd, if_true, hcur2, Bool.false_eq_true, if_false]
            rw [ih [] l2 ls2 hsp]
            simp
        · have hd2 : pyWs c = false := by simpa using hd
          simp only [tokensAux, hd2, Bool.false_eq_true, if_false]
          exact ih (c :: cur) l2 ls2 hsp

lemma tokensL_splitNl (v : Str) : tokensL (splitNl v) = tokens v := by
  cases hsp : splitNl v with
  | nil => exact absurd hsp (splitNl_ne_nil v)
  | cons l ls =>
    rw [tokens, tokensAux_splitNl v [] l ls hsp]
    simp [tokensL, tokens]

lemma tokens_joinNl : ∀ ls : List Str, tokens (joinNl ls) = tokensL ls
  | [] => rfl
  | [l] => by simp [joinNl, tokensL]
  | l :: l2 :: ls => by
    show tokens (l ++ '\n' :: joinNl (l2 :: ls)) = tokensL (l :: l2 :: ls)
    rw [tokens, tokensAux_append_ws (by decide) l [] (joinNl (l2 :: ls))]
    rw [tokensL]
    congr 1
    exact tokens_joinNl (l2 :: ls)

lemma tokensL_append : ∀ a b : List Str, tokensL (a ++ b) = tokensL a ++ tokensL b
  | [], b => rfl
  | l :: ls, b => by
    show tokens l ++ tokensL (ls ++ b) = (tokens l ++ tokensL ls) ++ tokensL b
    rw [tokensL_append ls b, List.append_assoc]

lemma tokensL_blankAfter (sh : Str → Bool) : ∀ ls : List Str,
    tokensL (blankAfter sh ls) = tokensL ls
  | [] => rfl
  | l :: ls => by
    rw [blankAfter]
    by_cases h : sh l
    · rw [if_pos h]
      simp only [tokensL]
      rw [tokensL_blankAfter sh ls]
      simp [tokens, tokensAux]
    · rw [if_neg h]
      simp only [tokensL]
      rw [tokensL_blankAfter sh ls]

lemma tokens_blank {l : Str} (h : isBlankL l = true) : tokens l = [] := by
  rw [isBlankL, List.isEmpty_iff] at h
  have h2 : tokens (pyStrip l) = tokens l := tokens_pyStrip l
  rw [h] at h2
  exact h2.symm

lemma tokensL_dropBlank : ∀ ls : List Str,
    tokensL (ls.dropWhile isBlankL) = tokensL ls
  | [] => rfl
  | l :: ls => by
    rw [List.dropWhile_cons]
    by_cases h : isBlankL l
    · rw [if_pos (by simp [h])]
      rw [tokensL_dropBlank ls]
      simp [tokensL, tokens_blank h]
    · rw [if_neg (by simp [h])]

lemma tokensL_allBlank : ∀ ws : List Str,
    (∀ l ∈ ws, isBlankL l = true) → tokensL ws = []
  | [], _ => rfl
  | l :: ls, h => by
    simp only [tokensL]
    rw [tokens_blank (h l (List.mem_cons_self _ _)),
      tokensL_allBlank ls (fun x hx => h x (List.mem_cons_of_mem l hx))]
    rfl

lemma tokensL_rdropBlank (ls : List Str) :
    tokensL ((ls.reverse.dropWhile isBlankL).reverse) = tokensL ls := by
  have hdec : ls = (ls.reverse.dropWhile isBlankL).reverse ++
      (ls.reverse.takeWhile isBlankL).reverse := by
    have h1 : (ls.reverse.dropWhile isBlankL).reverse ++ (ls.reverse.takeWhile isBlankL).reverse
        = (ls.reverse.takeWhile isBlankL ++ ls.reverse.dropWhile isBlankL).reverse := by
      rw [List.reverse_append]
    rw [h1, List.takeWhile_append_dropWhile, List.reverse_reverse]
  conv_rhs => rw [hdec]
  rw [tokensL_append]
  rw [tokensL_allBlank ((ls.reverse.takeWhile isBlankL).reverse)
    (fun l hl => List.mem_takeWhile_imp (List.mem_reverse.1 hl))]
  simp

lemma indentOf_eq (l : Str) : indentOf l = (l.takeWhile pyWs).length := by
  rw [indentOf, lstrip]
  have h : l.length = (l.takeWhile pyWs).length + (l.dropWhile pyWs).length := by
    conv_lhs => rw [← List.takeWhile_append_dropWhile (p := pyWs) (l := l)]
    rw [List.length_append]
  omega

lemma take_all_ws_of_le {l : Str} {m : Nat} (h : m ≤ indentOf l) :
    (l.take m).all pyWs = true := by
  rw [indentOf_eq] at h
  have hp : l.takeWhile pyWs <+: l := List.takeWhile_prefix pyWs
  obtain ⟨rest, hrest⟩ := hp
  rw [List.all_eq_true]
  intro a ha
  have htake : l.take m = (l.takeWhile pyWs).take m := by
    conv_lhs => rw [← hrest]
    rw [List.take_append_of_le_length h]
  rw [htake] at ha
  exact List.mem_takeWhile_imp ((List.take_sublist m _).subset ha)

lemma tokens_drop_of_ws_take {l : Str} {m : Nat} (h : (l.take m).all pyWs = true) :
    tokens (l.drop m) = tokens l := by
  conv_rhs => rw [← List.take_append_drop m l]
  rw [tokens, tokens, tokensAux_ws_prefix h]

lemma minIndent_none : ∀ ls : List Str,
    minIndent ls = none → ∀ l ∈ ls, isBlankL l = true := by
  intro ls
  induction ls with
  | nil => intro _ l hl; simp at hl
  | cons l0 ls2 ih =>
    intro h l hl
    rw [minIndent] at h
    cases hmi : minIndent ls2 with
    | none =>
      rw [hmi] at h
      rcases List.mem_cons.1 hl with rfl | hmem
      · by_cases hb : isBlankL l
        · exact hb
        · simp [hb] at h
      · exact ih hmi l hmem
    | some m2 =>
      rw [hmi] at h
      by_cases hb : isBlankL l0 <;> simp [hb] at h

lemma minIndent_le : ∀ (ls : List Str) (m : Nat), minIndent ls = some m →
    ∀ l ∈ ls, isBlankL l = false → m ≤ indentOf l := by
  intro ls
  induction ls with
  | nil => intro m h; simp [minIndent] at h
  | cons l0 ls2 ih =>
    intro m h l hl hbl
    rw [minIndent] at h
    rcases List.mem_cons.1 hl with rfl | hmem
    · cases hmi : minIndent ls2 with
      | none =>
        rw [hmi] at h
        rw [hbl] at h
        simp at h
        omega
      | some m2 =>
        rw [hmi] at h
        rw [hbl] at h
        simp at h
        omega
    · cases hmi : minIndent ls2 with
      | none =>
        have := minIndent_none ls2 hmi l hmem
        rw [this] at hbl
        simp at hbl
      | some m2 =>
        rw [hmi] at h
        by_cases hb0 : isBlankL l0
        · rw [hb0] at h
          simp at h
          subst h
          exact ih m2 hmi l hmem hbl
        · have hb02 : isBlankL l0 = false := by simpa using hb0
          rw [hb02] at h
          simp at h
          have h2 := ih m2 hmi l hmem hbl
          omega

lemma tokensL_dedent {m : Nat} : ∀ ls : List Str,
    (∀ l ∈ ls, isBlankL l = false → m ≤ indentOf l) →
    tokensL (ls.map (fun l => if isBlankL l then [] else l.drop m)) = tokensL ls := by
  intro ls
  induction ls with
  | nil => intro _; rfl
  | cons l0 ls2 ih =>
    intro h
    simp only [List.map_cons, tokensL]
    rw [ih (fun l hl hb => h l (List.mem_cons_of_mem l0 hl) hb)]
    congr 1
    by_cases hb : isBlankL l0
    · rw [if_pos hb, tokens_blank hb]
      rfl
    · have hb2 : isBlankL l0 = false := by simpa using hb
      rw [if_neg hb]
      exact tokens_drop_of_ws_take (take_all_ws_of_le (h l0 (List.mem_cons_self _ _) hb2))

lemma tokensAux_expandNl : ∀ (v : Str) (cur : Str) (r : Str),
    tokensAux cur (expandNl v ++ r) = tokensAux cur (v ++ r) := by
  intro v
  induction v with
  | nil => intro cur r; rfl
  | cons c cs ih =>
    intro cur r
    by_cases hc : c = '\n'
    · subst hc
      rw [expandNl, if_pos rfl]
      have hnl : pyWs '\n' = true := by decide
      have hsp : pyWs ' ' = true := by decide
      by_cases hcur : cur.isEmpty
      · simp only [List.cons_append, tokensAux, hnl, hsp, if_true, hcur, List.isEmpty_nil]
        exact ih [] r
      · have hcur2 : cur.isEmpty = false := by simpa using hcur
        simp only [List.cons_append, tokensAux, hnl, hsp, if_true, hcur2,
          Bool.false_eq_true, if_false, List.isEmpty_nil]
        exact congrArg (fun t => List.reverse cur :: t) (ih [] r)
    · rw [expandNl, if_neg hc]
      simp only [List.cons_append, tokensAux]
      by_cases hw : pyWs c <;> by_cases hcur : cur.isEmpty <;>
        simp [hw, hcur, ih]

lemma tokensAux_congr_suffix {r1 r2 : Str}
    (h : ∀ cur : Str, tokensAux cur r1 = tokensAux cur r2) :
    ∀ (w : Str) (cur : Str), tokensAux cur (w ++ r1) = tokensAux cur (w ++ r2) := by
  intro w
  induction w with
  | nil => intro cur; exact h cur
  | cons c cs ih =>
    intro cur
    simp only [List.cons_append, tokensAux]
    by_cases hw : pyWs c <;> by_cases hcur : cur.isEmpty <;>
      simp [hw, hcur, ih]

lemma tokens_rqScan_aux : ∀ v : Str,
    (∀ cur : Str, tokensAux cur (rqScan none v) = tokensAux cur v) ∧
    (∀ (q : Char) (acc cur : Str), pyWs q = false →
      tokensAux cur (rqScan (some (q, acc)) v) = tokensAux cur (q :: (acc.reverse ++ v))) := by
  intro v
  induction v with
  | nil =>
    constructor
    · intro cur; rfl
    · intro q acc cur hq
      simp [rqScan]
  | cons c cs ih =>
    obtain ⟨ihP, ihQ⟩ := ih
    constructor
    · intro cur
      rw [rqScan]
      by_cases hq : c = '"' || c = apos
      · rw [if_pos hq]
        have hqor : c = '"' ∨ c = apos := by simpa using hq
        have hqws : pyWs c = false := by
          rcases hqor with rfl | rfl <;> decide
        rw [ihQ c [] cur hqws]
        simp
      · rw [if_neg hq]
        simp only [tokensAux]
        by_cases hw : pyWs c <;> by_cases hcur : cur.isEmpty <;>
          simp [hw, hcur, ihP]
    · intro q acc cur hqws
      rw [rqScan]
      by_cases hc : c = q
      · rw [if_pos hc]
        subst hc
        simp only [tokensAux, hqws, Bool.false_eq_true, if_false]
        have hgoal : tokensAux (c :: cur) (expandNl acc.reverse ++ (c :: rqScan none cs)) =
            tokensAux (c :: cur) (acc.reverse ++ (c :: cs)) := by
          rw [tokensAux_expandNl]
          apply tokensAux_congr_suffix
          intro cur2
          simp only [tokensAux, hqws, Bool.false_eq_true, if_false]
          exact ihP (c :: cur2)
        exact hgoal
      · rw [if_neg hc]
        rw [ihQ q (c :: acc) cur hqws]
        simp

lemma tokens_rqScan (v : Str) : tokens (rqScan none v) = tokens v :=
  (tokens_rqScan_aux v).1 []

lemma tokens_stage (sh : Str → Bool) (c : Str) :
    tokens (joinNl (blankAfter sh (splitNl c))) = tokens c := by
  rw [tokens_joinNl, tokensL_blankAfter, tokensL_splitNl]

lemma tokens_format_code_block (c : Str) : tokens (format_code_block c) = tokens c := by
  rw [format_code_block]
  by_cases hd : pythonDetect c
  · rw [if_pos hd]
    dsimp only
    rw [tokens_rqScan, tokens_stage, tokens_stage, tokens_stage, tokens_stage, tokens_stage]
    rw [tokens_joinNl]
    cases hmi : minIndent ((((splitNl (pyStrip c)).dropWhile isBlankL).reverse.dropWhile
        isBlankL).reverse) with
    | none =>
      rw [tokensL_rdropBlank, tokensL_dropBlank, tokensL_splitNl, tokens_pyStrip]
    | some m =>
      rw [tokensL_dedent _ (fun l hl hb => minIndent_le _ m hmi l hl hb)]
      rw [tokensL_rdropBlank, tokensL_dropBlank, tokensL_splitNl, tokens_pyStrip]
  · rw [if_neg hd]
    exact tokens_pyStrip c

lemma splitNl_of_no_nl {l : Str} (h : '\n' ∉ l) : splitNl l = [l] := by
  induction l with
  | nil => rfl
  | cons c cs ih =>
    have hc : c ≠ '\n' := fun he => h (he ▸ List.mem_cons_self _ _)
    rw [splitNl, if_neg hc, ih (fun hm => h (List.mem_cons_of_mem c hm))]

lemma splitNl_append {l : Str} (h : '\n' ∉ l) (t : Str) :
    splitNl (l ++ '\n' :: t) = l :: splitNl t := by
  induction l with
  | nil =>
    simp only [List.nil_append]
    rw [splitNl, if_pos rfl]
  | cons c cs ih =>
    have hc : c ≠ '\n' := fun he => h (he ▸ List.mem_cons_self _ _)
    simp only [List.cons_append]
    rw [splitNl, if_neg hc, ih (fun hm => h (List.mem_cons_of_mem c hm))]

lemma splitNl_joinNl : ∀ ls : List Str, ls ≠ [] → (∀ l ∈ ls, '\n' ∉ l) →
    splitNl (joinNl ls) = ls
  | [], h, _ => absurd rfl h
  | [l], _, hnl => by
    show splitNl l = [l]
    exact splitNl_of_no_nl (hnl l (List.mem_cons_self _ _))
  | l :: l2 :: ls, _, hnl => by
    show splitNl (l ++ '\n' :: joinNl (l2 :: ls)) = l :: l2 :: ls
    rw [splitNl_append (hnl l (List.mem_cons_self _ _))]
    congr 1
    exact splitNl_joinNl (l2 :: ls) (by simp)
      (fun x hx => hnl x (List.mem_cons_of_mem l hx))

lemma joinNl_ne_nil_two (a b : Str) (t : List Str) : joinNl (a :: b :: t) ≠ [] := by
  show a ++ '\n' :: joinNl (b :: t) ≠ []
  simp

lemma joinNl_ne_nil_of_two : ∀ ls : List Str, 2 ≤ ls.length → joinNl ls ≠ []
  | a :: b :: t, _ => joinNl_ne_nil_two a b t
  | [], h => by simp at h
  | [a], h => by simp at h

lemma pmcLoop_skip : ∀ (ls rest : List Str), (∀ l ∈ ls, startsFence l = false) →
    pmcLoop false [] (ls ++ rest) = ls.map listNorm ++ pmcLoop false [] rest
  | [], rest, _ => by simp
  | l :: ls, rest, h => by
    have hl : startsFence l = false := h l (List.mem_cons_self _ _)
    have ih := pmcLoop_skip ls rest (fun x hx => h x (List.mem_cons_of_mem l hx))
    simp [pmcLoop, hl, ih]

lemma pmcLoop_accum : ∀ (code acc rest : List Str),
    (∀ l ∈ code, startsFence l = false) →
    pmcLoop true acc (code ++ rest) = pmcLoop true (acc ++ code) rest
  | [], acc, rest, _ => by simp
  | l :: code, acc, rest, h => by
    have hl : startsFence l = false := h l (List.mem_cons_self _ _)
    have ih := pmcLoop_accum code (acc ++ [l]) rest (fun x hx => h x (List.mem_cons_of_mem l hx))
    simp [pmcLoop, hl, ih]

lemma pmcLoop_close (acc : List Str) (fc : Str) (hfc : startsFence fc = true)
    (rest : List Str) :
    pmcLoop true acc (fc :: rest) =
      str "```python" ::
        (splitNl (format_code_block (joinNl acc)) ++ str "```" :: pmcLoop false [] rest) := by
  simp [pmcLoop, hfc]

lemma pmcLoop_open (fo : Str) (hfo : startsFence fo = true) (acc rest : List Str) :
    pmcLoop false acc (fo :: rest) = pmcLoop true [] rest := by
  simp [pmcLoop, hfo]

lemma pmcLoop_end : pmcLoop false [] [] = [] := rfl

lemma pmc_single_block_decomp (pre code post : List Str) (fo fc : Str)
    (hpre : ∀ l ∈ pre, '\n' ∉ l ∧ startsFence l = false)
    (hcode : ∀ l ∈ code, '\n' ∉ l ∧ startsFence l = false)
    (hpost : ∀ l ∈ post, '\n' ∉ l ∧ startsFence l = false)
    (hfo : '\n' ∉ fo ∧ startsFence fo = true)
    (hfc : '\n' ∉ fc ∧ startsFence fc = true) :
    process_markdown_content (joinNl (pre ++ fo :: code ++ fc :: post)) =
      joinNl (pre.map listNorm ++ str "```python" ::
        (splitNl (format_code_block (joinNl code)) ++ str "```" :: post.map listNorm)) := by
  have hlen : 2 ≤ (pre ++ fo :: code ++ fc :: post).length := by
    simp only [List.length_append, List.length_cons]
    omega
  have hne2 : joinNl (pre ++ fo :: code ++ fc :: post) ≠ [] :=
    joinNl_ne_nil_of_two _ hlen
  have hne : ¬(joinNl (pre ++ fo :: code ++ fc :: post)).isEmpty = true := by
    simpa [List.isEmpty_iff] using hne2
  rw [process_markdown_content, if_neg hne]
  have hsplit : splitNl (joinNl (pre ++ fo :: code ++ fc :: post)) =
      pre ++ fo :: code ++ fc :: post := by
    apply splitNl_joinNl
    · intro hnil
      rw [hnil] at hlen
      simp at hlen
    · intro l hl
      rcases List.mem_append.1 hl with h1 | h2
      · rcases List.mem_append.1 h1 with h3 | h4
        · exact (hpre l h3).1
        · rcases List.mem_cons.1 h4 with rfl | h5
          · exact hfo.1
          · exact (hcode l h5).1
      · rcases List.mem_cons.1 h2 with rfl | h6
        · exact hfc.1
        · exact (hpost l h6).1
  rw [hsplit]
  have hassoc : (pre ++ fo :: code) ++ fc :: post = pre ++ (fo :: (code ++ fc :: post)) := by
    simp [List.append_assoc]
  rw [hassoc]
  rw [pmcLoop_skip pre (fo :: (code ++ fc :: post)) (fun l hl => (hpre l hl).2)]
  rw [pmcLoop_open fo hfo.2]
  rw [pmcLoop_accum code [] (fc :: post) (fun l hl => (hcode l hl).2)]
  rw [List.nil_append]
  rw [pmcLoop_close code fc hfc.2 post]
  have hpost2 : pmcLoop false [] post = post.map listNorm := by
    have h2 := pmcLoop_skip post [] (fun l hl => (hpost l hl).2)
    rw [List.append_nil] at h2
    rw [h2, pmcLoop_end, List.append_nil]
  rw [hpost2]

/-- C2: for a markdown input consisting of some non-fence lines, an opening
fence line, non-fence code lines, a closing fence line and further
non-fence lines, `process_markdown_content` keeps the structure — the code
block is re-emitted between fences around the reformatted code — and the
whitespace-separated token sequence of the reformatted code equals that of
the original code: `format_code_block` only strips, pops blank boundary
lines, removes common indentation, inserts blank lines and re-indents
inside quoted spans, all whitespace-only operations. -/
theorem pmc_single_block_round_trip (pre code post : List Str) (fo fc : Str)
    (hpre : ∀ l ∈ pre, '\n' ∉ l ∧ startsFence l = false)
    (hcode : ∀ l ∈ code, '\n' ∉ l ∧ startsFence l = false)
    (hpost : ∀ l ∈ post, '\n' ∉ l ∧ startsFence l = false)
    (hfo : '\n' ∉ fo ∧ startsFence fo = true)
    (hfc : '\n' ∉ fc ∧ startsFence fc = true) :
    process_markdown_content (joinNl (pre ++ fo :: code ++ fc :: post)) =
      joinNl (pre.map listNorm ++ str "```python" ::
        (splitNl (format_code_block (joinNl code)) ++ str "```" :: post.map listNorm)) ∧
    tokens (format_code_block (joinNl code)) = tokens (joinNl code) :=
  ⟨pmc_single_block_decomp pre code post fo fc hpre hcode hpost hfo hfc,
   tokens_format_code_block (joinNl code)⟩

theorem pmc_single_block_round_trip_witness :
    process_markdown_content
        (joinNl ([str "a"] ++ str "```" :: [str "import os", str "x = 1"] ++
          str "```" :: [str "b"])) =
      joinNl ([str "a"].map listNorm ++ str "```python" ::
        (splitNl (format_code_block (joinNl [str "import os", str "x = 1"])) ++
          str "```" :: [str "b"].map listNorm)) ∧
    tokens (format_code_block (joinNl [str "import os", str "x = 1"])) =
      tokens (joinNl [str "import os", str "x = 1"]) :=
  pmc_single_block_round_trip [str "a"] [str "import os", str "x = 1"] [str "b"]
    (str "```") (str "```")
    (by decide) (by decide) (by decide) (by decide) (by decide)

/-- C3 counterexample: a code block with no language-indicative token is
still tagged `python` by `process_markdown_content` — the fence line it
emits is the fixed string `'```python'`, never an untagged fence. -/
theorem pmc_block_tag_counterexample :
    process_markdown_content (str "t\n```\nz z\n```") = str "t\n```python\nz z\n```" ∧
    pythonDetect (str "z z") = false := by
  constructor <;> decide

/-- C3: every fenced block emitted by `process_markdown_content` is tagged
`python`, whether or not language-indicative tokens are present; the
detection only decides whether the Python-specific whitespace reformatting
runs — when nothing is detected the emitted body is just the stripped
code, still under a `python` fence. -/
theorem pmc_block_always_tagged_python (pre code post : List Str) (fo fc : Str)
    (hpre : ∀ l ∈ pre, '\n' ∉ l ∧ startsFence l = false)
    (hcode : ∀ l ∈ code, '\n' ∉ l ∧ startsFence l = false)
    (hpost : ∀ l ∈ post, '\n' ∉ l ∧ startsFence l = false)
    (hfo : '\n' ∉ fo ∧ startsFence fo = true)
    (hfc : '\n' ∉ fc ∧ startsFence fc = true) :
    process_markdown_content (joinNl (pre ++ fo :: code ++ fc :: post)) =
      joinNl (pre.map listNorm ++ str "```python" ::
        (splitNl (format_code_block (joinNl code)) ++ str "```" :: post.map listNorm)) ∧
    (pythonDetect (joinNl code) = false →
      format_code_block (joinNl code) = pyStrip (joinNl code)) := by
  refine ⟨pmc_single_block_decomp pre code post fo fc hpre hcode hpost hfo hfc, ?_⟩
  intro hpd
  rw [format_code_block, hpd]
  simp

theorem pmc_block_always_tagged_python_witness :
    process_markdown_content
        (joinNl (([] : List Str) ++ str "```" :: [str "z z"] ++ str "```" :: [])) =
      joinNl (([] : List Str).map listNorm ++ str "```python" ::
        (splitNl (format_code_block (joinNl [str "z z"])) ++
          str "```" :: ([] : List Str).map listNorm)) ∧
    (pythonDetect (joinNl [str "z z"]) = false →
      format_code_block (joinNl [str "z z"]) = pyStrip (joinNl [str "z z"])) :=
  pmc_block_always_tagged_python [] [str "z z"] [] (str "```") (str "```")
    (by decide) (by decide) (by decide) (by decide) (by decide)
